import Mathlib

/-!
Verification development for the `fast-abi` native module
(`src/native/src/lib.rs`): a neon binding that tokenizes loosely-typed
host (JavaScript) values against contract ABI parameter types and
encodes/decodes the packed ABI byte format via the `ethabi` crate.

Modelling conventions:
* bytes are `Nat`s (with explicit `< 256` / `< 2 ^ 256` bounds where they matter);
* host strings cross the neon boundary as Rust `String`s, so they are modelled
  by their UTF-8 byte lists (`List Nat`); a host number is modelled by the
  decimal text its `to_string()` produces;
* Rust `Result` values are `Except`/`Option`; a Rust panic (a failed `unwrap`,
  an out-of-bounds slice, or an explicit `panic!`) is the `PRes.panic` outcome;
* the ABI codec and the lenient numeric/hex tokenizers live in the external
  `ethabi` crate, outside this repository's sources; those definitions are
  modelled from the spec (sections 4.1-4.3) and carry doc comments saying so.
-/

set_option maxHeartbeats 1000000

namespace FastAbi

/-- Big-endian byte list of length `k` holding `n % 256 ^ k`. -/
def natToBe : Nat → Nat → List Nat
  | 0, _ => []
  | k + 1, n => natToBe k (n / 256) ++ [n % 256]

/-- Value of a big-endian byte list. -/
def beVal (bs : List Nat) : Nat := bs.foldl (fun a b => a * 256 + b) 0

/-- One 32-byte ABI word holding `n % 2 ^ 256`, big-endian. -/
def word (n : Nat) : List Nat := natToBe 32 n

/-- Bounds-checked sub-list: `n` bytes of `R` starting at `s`. -/
def slice (R : List Nat) (s n : Nat) : Option (List Nat) :=
  if s + n ≤ R.length then some ((R.drop s).take n) else none

/-- Read the 32-byte word at byte position `p`. -/
def readWord (R : List Nat) (p : Nat) : Option Nat := (slice R p 32).map beVal

/-- Round a byte count up to a multiple of 32. -/
def pad32 (n : Nat) : Nat := ((n + 31) / 32) * 32

/-- A run of zero padding bytes. -/
def zeros (n : Nat) : List Nat := List.replicate n 0

/-- ABI parameter types, mirroring `ethabi::ParamType` as used by `lib.rs`. -/
inductive ParamType where
  | Address
  | Bool
  | String
  | Bytes
  | FixedBytes (n : Nat)
  | Uint (bits : Nat)
  | Int (bits : Nat)
  | Array (elem : ParamType)
  | FixedArray (elem : ParamType) (n : Nat)
  | Tuple (components : List ParamType)

/-- Typed argument values, mirroring `ethabi::Token`.  `Uint` and `Int` both
carry a `U256` in ethabi; here that 256-bit word is a `Nat` (for `Int` it is
the two's-complement residue).  Text is carried as its UTF-8 bytes. -/
inductive Token where
  | Address (bytes : List Nat)
  | Bool (b : Bool)
  | String (bytes : List Nat)
  | Bytes (bytes : List Nat)
  | FixedBytes (bytes : List Nat)
  | Uint (v : Nat)
  | Int (v : Nat)
  | Array (ts : List Token)
  | FixedArray (ts : List Token)
  | Tuple (ts : List Token)

/-- Host (JavaScript) values as the neon boundary of `lib.rs` distinguishes
them: a string, a number (modelled by its `to_string()` decimal text), a
boolean, an array, or a keyed object.  Fields of a keyed object are never
inspected by the code (it panics first), but are kept for faithfulness. -/
inductive JsValue where
  | str (bytes : List Nat)
  | num (text : List Nat)
  | bool (b : Bool)
  | arr (vs : List JsValue)
  | obj (fields : List (Nat × JsValue))

/-- The `ethabi::Error` values the modelled paths can produce. -/
inductive EthError where
  | invalidData
  | hexError
  deriving DecidableEq

/-- Outcome of running one of the Rust functions: `Ok`, `Err`, or a panic
(an `unwrap` of a failed value, an out-of-bounds slice, or `panic!`). -/
inductive PRes (α : Type) where
  | ok (a : α)
  | err (e : EthError)
  | panic

namespace PRes

def bind : PRes α → (α → PRes β) → PRes β
  | .ok a, f => f a
  | .err e, _ => .err e
  | .panic, _ => .panic

def map (f : α → β) : PRes α → PRes β
  | .ok a => .ok (f a)
  | .err e => .err e
  | .panic => .panic

def isPanic : PRes α → Bool
  | .panic => true
  | _ => false

end PRes

/-- Lift an `ethabi` result (which cannot panic by itself) into `PRes`. -/
def liftE : Except EthError α → PRes α
  | .ok a => .ok a
  | .error e => .err e

mutual

/-- Modelled from the spec (4.2): a type is dynamic when it is `String`,
`Bytes`, `Array`, or a composite with a dynamic element. -/
def isDynT : ParamType → Bool
  | .String => true
  | .Bytes => true
  | .Array _ => true
  | .FixedArray p _ => isDynT p
  | .Tuple ps => anyDynT ps
  | _ => false

/-- Modelled from the spec (4.2): some component type is dynamic. -/
def anyDynT : List ParamType → Bool
  | [] => false
  | p :: ps => isDynT p || anyDynT ps

end

mutual

/-- Modelled from the spec (4.2): a token is dynamic when it is `String`,
`Bytes`, `Array`, or a composite containing a dynamic element. -/
def Token.isDyn : Token → Bool
  | .String _ => true
  | .Bytes _ => true
  | .Array _ => true
  | .FixedArray ts => anyDyn ts
  | .Tuple ts => anyDyn ts
  | _ => false

/-- Modelled from the spec (4.2): some member token is dynamic. -/
def anyDyn : List Token → Bool
  | [] => false
  | t :: ts => Token.isDyn t || anyDyn ts

end

mutual

/-- Shape check of a token against a type, as `ethabi`'s `Token::types_check`
performs before encoding (spec 3: a token's shape must structurally match the
type that produced it). -/
def typeCheck : Token → ParamType → Bool
  | .Address a, .Address => a.length == 20
  | .Bool _, .Bool => true
  | .String _, .String => true
  | .Bytes _, .Bytes => true
  | .FixedBytes bs, .FixedBytes n => bs.length == n
  | .Uint _, .Uint _ => true
  | .Int _, .Int _ => true
  | .Array ts, .Array p => allCheck ts p
  | .FixedArray ts, .FixedArray p n => ts.length == n && allCheck ts p
  | .Tuple ts, .Tuple ps => checkSeq ts ps
  | _, _ => false

/-- Every member checks against the one element type. -/
def allCheck : List Token → ParamType → Bool
  | [], _ => true
  | t :: ts, p => typeCheck t p && allCheck ts p

/-- Members check pairwise against the component types. -/
def checkSeq : List Token → List ParamType → Bool
  | [], [] => true
  | t :: ts, p :: ps => typeCheck t p && checkSeq ts ps
  | _, _ => false

end

mutual

/-- Representation invariant a real `ethabi::Token` satisfies by construction:
20-byte addresses hold bytes, `U256` words are below `2 ^ 256`, byte/text
payloads hold bytes, and sequence lengths fit in a 256-bit length word. -/
def Token.valid : Token → Bool
  | .Address a => a.all fun b => decide (b < 256)
  | .Bool _ => true
  | .String bs => decide (bs.length < 2 ^ 256) && bs.all fun b => decide (b < 256)
  | .Bytes bs => decide (bs.length < 2 ^ 256) && bs.all fun b => decide (b < 256)
  | .FixedBytes bs => bs.all fun b => decide (b < 256)
  | .Uint v => decide (v < 2 ^ 256)
  | .Int v => decide (v < 2 ^ 256)
  | .Array ts => decide (ts.length < 2 ^ 256) && validAll ts
  | .FixedArray ts => validAll ts
  | .Tuple ts => validAll ts

/-- Every member token is valid. -/
def validAll : List Token → Bool
  | [] => true
  | t :: ts => Token.valid t && validAll ts

end

mutual

/-- Well-formed type descriptors (spec 3): `FixedBytes n` with `1 ≤ n ≤ 32`,
integer widths that are byte multiples in `8..256`, positive fixed-array
lengths, and well-formed components. -/
def ParamType.wf : ParamType → Bool
  | .Address => true
  | .Bool => true
  | .String => true
  | .Bytes => true
  | .FixedBytes n => decide (1 ≤ n) && decide (n ≤ 32)
  | .Uint bits => decide (8 ≤ bits) && decide (bits ≤ 256) && decide (bits % 8 = 0)
  | .Int bits => decide (8 ≤ bits) && decide (bits ≤ 256) && decide (bits % 8 = 0)
  | .Array p => ParamType.wf p
  | .FixedArray p n => decide (1 ≤ n) && ParamType.wf p
  | .Tuple ps => wfAll ps

/-- Every component type is well-formed. -/
def wfAll : List ParamType → Bool
  | [] => true
  | p :: ps => ParamType.wf p && wfAll ps

end

/-- Head-slot length contributed by each already-encoded member: 32 bytes for
a dynamic member (its offset word), the inline encoding length otherwise. -/
def partsHeadLen : List (Bool × List Nat) → Nat
  | [] => 0
  | (d, e) :: r => (if d then 32 else e.length) + partsHeadLen r

/-- Modelled from the spec (4.2): the head slots of a sequence.  `hl` is the
total head length of the sequence, `tl` the length of tail content emitted so
far; a dynamic member's head is the offset word `hl + tl`. -/
def heads (hl tl : Nat) : List (Bool × List Nat) → List Nat
  | [] => []
  | (d, e) :: r =>
    if d then word (hl + tl) ++ heads hl (tl + e.length) r
    else e ++ heads hl tl r

/-- Modelled from the spec (4.2): the concatenated tails of the dynamic
members, in order. -/
def tails : List (Bool × List Nat) → List Nat
  | [] => []
  | (d, e) :: r => (if d then e else []) ++ tails r

/-- Modelled from the spec (4.2): head slots followed by the tail region. -/
def assemble (ps : List (Bool × List Nat)) : List Nat :=
  heads (partsHeadLen ps) 0 ps ++ tails ps

mutual

/-- Modelled from the spec (4.2, `ethabi::encode`): the full encoding of one
token — the inline bytes of a static token, or the tail content of a dynamic
one.  Integers and bool are one right-aligned word; an address is 12 zero
bytes then 20 address bytes; byte-like payloads are zero-padded to a 32-byte
boundary, length-prefixed when dynamic; an `Array` tail is a length word then
the head/tail encoding of the members; `FixedArray`/`Tuple` encode their
members' head/tail layout with no length prefix. -/
def encT : Token → List Nat
  | .Address a => zeros 12 ++ a
  | .Bool b => word (cond b 1 0)
  | .Uint v => word v
  | .Int v => word v
  | .FixedBytes bs => bs ++ zeros (pad32 bs.length - bs.length)
  | .Bytes bs => word bs.length ++ bs ++ zeros (pad32 bs.length - bs.length)
  | .String bs => word bs.length ++ bs ++ zeros (pad32 bs.length - bs.length)
  | .Array ts => word ts.length ++ assemble (encParts ts)
  | .FixedArray ts => assemble (encParts ts)
  | .Tuple ts => assemble (encParts ts)

/-- Dynamism flag and encoding of each member, in order. -/
def encParts : List Token → List (Bool × List Nat)
  | [] => []
  | t :: ts => (Token.isDyn t, encT t) :: encParts ts

end

/-- Modelled from the spec (4.2): encoding of a top-level token sequence. -/
def abiEncode (ts : List Token) : List Nat := assemble (encParts ts)

mutual

/-- Modelled from the spec (4.3, `ethabi::decode`): decode one value of type
`ty` whose head slot sits at byte position `pos` of region `R`; for a dynamic
type the head slot is an offset into `R` where the tail content starts. -/
def decH (ty : ParamType) (R : List Nat) (pos : Nat) : Option (Token × Nat) :=
  if isDynT ty then do
    let off ← readWord R pos
    let t ← decD ty (R.drop off)
    pure (t, pos + 32)
  else decS ty R pos
termination_by (sizeOf ty, 1, 0)

/-- Modelled from the spec (4.3): decode a static value inline from its head
slots, advancing the position past them.  Dynamic types never reach here. -/
def decS : ParamType → List Nat → Nat → Option (Token × Nat)
  | .Address, R, pos => do
    let a ← slice R (pos + 12) 20
    pure (.Address a, pos + 32)
  | .Bool, R, pos => do
    let w ← readWord R pos
    if w = 0 then pure (.Bool false, pos + 32)
    else if w = 1 then pure (.Bool true, pos + 32)
    else none
  | .Uint _, R, pos => do
    let w ← readWord R pos
    pure (.Uint w, pos + 32)
  | .Int _, R, pos => do
    let w ← readWord R pos
    pure (.Int w, pos + 32)
  | .FixedBytes n, R, pos => do
    let bs ← slice R pos n
    pure (.FixedBytes bs, pos + 32)
  | .FixedArray p n, R, pos => do
    let (ts, pos') ← decN p n R pos
    pure (.FixedArray ts, pos')
  | .Tuple ps, R, pos => do
    let (ts, pos') ← decL ps R pos
    pure (.Tuple ts, pos')
  | .String, _, _ => none
  | .Bytes, _, _ => none
  | .Array _, _, _ => none
termination_by ty _ _ => (sizeOf ty, 0, 0)

/-- Modelled from the spec (4.3): decode a dynamic value from its tail region
(offsets inside the region are relative to its start). -/
def decD : ParamType → List Nat → Option Token
  | .Bytes, R => do
    let len ← readWord R 0
    let bs ← slice R 32 len
    pure (.Bytes bs)
  | .String, R => do
    let len ← readWord R 0
    let bs ← slice R 32 len
    pure (.String bs)
  | .Array p, R => do
    let len ← readWord R 0
    let (ts, _) ← decN p len (R.drop 32) 0
    pure (.Array ts)
  | .FixedArray p n, R => do
    let (ts, _) ← decN p n R 0
    pure (.FixedArray ts)
  | .Tuple ps, R => do
    let (ts, _) ← decL ps R 0
    pure (.Tuple ts)
  | .Address, _ => none
  | .Bool, _ => none
  | .Uint _, _ => none
  | .Int _, _ => none
  | .FixedBytes _, _ => none
termination_by ty _ => (sizeOf ty, 0, 0)

/-- Decode `n` consecutive values of element type `p`. -/
def decN (p : ParamType) (n : Nat) (R : List Nat) (pos : Nat) :
    Option (List Token × Nat) :=
  match n with
  | 0 => pure ([], pos)
  | n + 1 => do
    let (t, pos') ← decH p R pos
    let (ts, pos'') ← decN p n R pos'
    pure (t :: ts, pos'')
termination_by (sizeOf p, 2, n)

/-- Decode a sequence of values of the given component types in order. -/
def decL : List ParamType → List Nat → Nat → Option (List Token × Nat)
  | [], _, pos => pure ([], pos)
  | ty :: tys, R, pos => do
    let (t, pos') ← decH ty R pos
    let (ts, pos'') ← decL tys R pos'
    pure (t :: ts, pos'')
termination_by tys _ _ => (sizeOf tys, 0, 0)

end

/-- Modelled from the spec (4.3): decode a top-level byte buffer against an
ordered sequence of type descriptors, yielding the token sequence. -/
def abiDecode (tys : List ParamType) (data : List Nat) : Option (List Token) :=
  (decL tys data 0).map Prod.fst

/-- Value of an ASCII hex digit byte, as the `hex` crate accepts
(`0-9`, `a-f`, `A-F`). -/
def hexVal (b : Nat) : Option Nat :=
  if 48 ≤ b ∧ b ≤ 57 then some (b - 48)
  else if 97 ≤ b ∧ b ≤ 102 then some (b - 87)
  else if 65 ≤ b ∧ b ≤ 70 then some (b - 55)
  else none

/-- Value of an ASCII decimal digit byte. -/
def digitVal (b : Nat) : Option Nat :=
  if 48 ≤ b ∧ b ≤ 57 then some (b - 48) else none

/-- The `hex` crate's `hex::decode`: pairs of hex digits into bytes, failing
on an odd length or a non-hex character. -/
def hexDecode : List Nat → Option (List Nat)
  | [] => some []
  | [_] => none
  | h :: l :: rest => do
    let hv ← hexVal h
    let lv ← hexVal l
    let r ← hexDecode rest
    pure ((16 * hv + lv) :: r)

/-- Lowercase ASCII hex digit of a value below 16. -/
def hexDigit (n : Nat) : Nat := if n < 10 then 48 + n else 87 + n

/-- The `hex` crate's `hex::encode`: two lowercase hex digits per byte. -/
def hexEncode : List Nat → List Nat
  | [] => []
  | b :: bs => hexDigit (b / 16) :: hexDigit (b % 16) :: hexEncode bs

/-- Accumulate digit bytes left to right in the given base. -/
def parseDigits (dv : Nat → Option Nat) (base : Nat) :
    List Nat → Nat → Option Nat
  | [], acc => some acc
  | b :: r, acc => do
    let d ← dv b
    parseDigits dv base r (acc * base + d)

/-- Modelled from the spec (4.1, lenient numeric parsing): a numeric text is
either `0x` followed by hex digits or a non-empty run of decimal digits,
parsed with arbitrary precision. -/
def parseNumber (s : List Nat) : Option Nat :=
  if s.take 2 = [48, 120] then
    match s.drop 2 with
    | [] => none
    | r => parseDigits hexVal 16 r 0
  else
    match s with
    | [] => none
    | r => parseDigits digitVal 10 r 0

namespace LenientTokenizer

/-- Modelled from the spec (4.1): an address text must decode to exactly
20 bytes of hex (the `0x` prefix was already stripped by the caller). -/
def tokenize_address (s : List Nat) : Except EthError (List Nat) :=
  match hexDecode s with
  | none => .error .hexError
  | some bs => if bs.length = 20 then .ok bs else .error .invalidData

/-- Modelled from the spec (4.1): text passes through verbatim. -/
def tokenize_string (s : List Nat) : Except EthError (List Nat) := .ok s

/-- Modelled from the spec (4.1): hex digits decoded into raw bytes. -/
def tokenize_bytes (s : List Nat) : Except EthError (List Nat) :=
  match hexDecode s with
  | none => .error .hexError
  | some bs => .ok bs

/-- Modelled from the spec (4.1): hex digits decoded into raw bytes whose
count must equal the declared width. -/
def tokenize_fixed_bytes (s : List Nat) (len : Nat) : Except EthError (List Nat) :=
  match hexDecode s with
  | none => .error .hexError
  | some bs => if bs.length = len then .ok bs else .error .invalidData

/-- Modelled from the spec (4.1): decimal or `0x`-hex text parsed with
arbitrary precision into an unsigned 256-bit word. -/
def tokenize_uint (s : List Nat) : Except EthError Nat :=
  match parseNumber s with
  | none => .error .invalidData
  | some v => if v < 2 ^ 256 then .ok v else .error .invalidData

/-- Modelled from the spec (4.1): like `tokenize_uint` but an optional
leading minus sign (byte 45) produces the two's-complement 256-bit word. -/
def tokenize_int (s : List Nat) : Except EthError Nat :=
  if s.take 1 = [45] then
    match parseNumber (s.drop 1) with
    | none => .error .invalidData
    | some m =>
      if m = 0 then .ok 0
      else if m ≤ 2 ^ 255 then .ok (2 ^ 256 - m) else .error .invalidData
  else
    match parseNumber s with
    | none => .error .invalidData
    | some v => if v < 2 ^ 256 then .ok v else .error .invalidData

end LenientTokenizer

/-- The `remove_hex_prefix` of `lib.rs`: `&data_hex[..2]` panics when the
string is shorter than 2 bytes; otherwise a leading `"0x"` is dropped. -/
def removeHexPrefix (s : List Nat) : PRes (List Nat) :=
  if s.length < 2 then .panic
  else if s.take 2 = [48, 120] then .ok (s.drop 2)
  else .ok s

/-- The `remove_bytes4` of `lib.rs`: strip the prefix, then `&s[8..]`, which
panics when fewer than 8 bytes remain. -/
def removeBytes4 (s : List Nat) : PRes (List Nat) :=
  (removeHexPrefix s).bind fun r =>
    if r.length < 8 then .panic else .ok (r.drop 8)

/-- The `tokenize_address` of `lib.rs`: downcast to a string (panicking on
any other host value), strip the optional prefix, then tokenize. -/
def tokenize_address (v : JsValue) : PRes (List Nat) :=
  match v with
  | .str s => (removeHexPrefix s).bind fun r =>
      liftE (LenientTokenizer.tokenize_address r)
  | _ => .panic

/-- The `tokenize_string` of `lib.rs`. -/
def tokenize_string (v : JsValue) : PRes (List Nat) :=
  match v with
  | .str s => liftE (LenientTokenizer.tokenize_string s)
  | _ => .panic

/-- The `tokenize_bool` of `lib.rs`: only a native boolean is accepted; any
other host value fails the downcast and panics. -/
def tokenize_bool (v : JsValue) : PRes Bool :=
  match v with
  | .bool b => .ok b
  | _ => .panic

/-- The `tokenize_bytes` of `lib.rs`. -/
def tokenize_bytes (v : JsValue) : PRes (List Nat) :=
  match v with
  | .str s => (removeHexPrefix s).bind fun r =>
      liftE (LenientTokenizer.tokenize_bytes r)
  | _ => .panic

/-- The `tokenize_fixed_bytes` of `lib.rs`. -/
def tokenize_fixed_bytes (v : JsValue) (len : Nat) : PRes (List Nat) :=
  match v with
  | .str s => (removeHexPrefix s).bind fun r =>
      liftE (LenientTokenizer.tokenize_fixed_bytes r len)
  | _ => .panic

/-- The `tokenize_uint` of `lib.rs`: a number is formatted to text first;
a string is used as is; anything else fails the string downcast. -/
def tokenize_uint (v : JsValue) : PRes Nat :=
  match v with
  | .num s => liftE (LenientTokenizer.tokenize_uint s)
  | .str s => liftE (LenientTokenizer.tokenize_uint s)
  | _ => .panic

/-- The `tokenize_int` of `lib.rs`. -/
def tokenize_int (v : JsValue) : PRes Nat :=
  match v with
  | .num s => liftE (LenientTokenizer.tokenize_int s)
  | .str s => liftE (LenientTokenizer.tokenize_int s)
  | _ => .panic

mutual

/-- The `tokenize` of `lib.rs`: dispatch on the declared parameter type.
Note `FixedArray` forwards to `tokenize_array` ignoring the declared
length, exactly as the source's `ParamType::FixedArray(ref p, _len)` arm. -/
def tokenize (param : ParamType) (value : JsValue) : PRes Token :=
  match param with
  | .Address => (tokenize_address value).map fun a => .Address a
  | .String => (tokenize_string value).map fun s => .String s
  | .Bool => (tokenize_bool value).map fun b => .Bool b
  | .Bytes => (tokenize_bytes value).map fun bs => .Bytes bs
  | .FixedBytes len => (tokenize_fixed_bytes value len).map fun bs => .FixedBytes bs
  | .Uint _ => (tokenize_uint value).map fun v => .Uint v
  | .Int _ => (tokenize_int value).map fun v => .Int v
  | .Array p => (tokenize_array value p).map fun ts => .Array ts
  | .FixedArray p _ => (tokenize_array value p).map fun ts => .FixedArray ts
  | .Tuple ps => (tokenize_struct value ps).map fun ts => .Tuple ts
termination_by (sizeOf param, sizeOf value)

/-- The `tokenize_array` of `lib.rs`: downcast to an array (panicking
otherwise) and tokenize every element against the one element type. -/
def tokenize_array (value : JsValue) (param : ParamType) : PRes (List Token) :=
  match value with
  | .arr vs => mapTokenize param vs
  | _ => .panic
termination_by (sizeOf param, sizeOf value)

/-- Element loop of `tokenize_array`, in order, stopping at the first
failure. -/
def mapTokenize (param : ParamType) : List JsValue → PRes (List Token)
  | [] => .ok []
  | v :: vs => (tokenize param v).bind fun t =>
      (mapTokenize param vs).map fun ts => t :: ts
termination_by vs => (sizeOf param, sizeOf vs)

/-- The `tokenize_struct` of `lib.rs`: an array input is tokenized
positionally (`params.next().ok_or(Error::InvalidData)?` fails only when the
input is longer than the component list — a shorter input succeeds); any
non-array input hits the source's
`panic!("Unsupported object structure, use an array of ordered values")`. -/
def tokenize_struct (value : JsValue) (params : List ParamType) : PRes (List Token) :=
  match value with
  | .arr vs => structLoop params vs
  | _ => .panic
termination_by (sizeOf params, sizeOf value)

/-- Element loop of `tokenize_struct`: each input element consumes the next
component type; leftover component types are simply never consumed. -/
def structLoop : List ParamType → List JsValue → PRes (List Token)
  | _, [] => .ok []
  | [], _ :: _ => .err .invalidData
  | p :: ps, v :: vs => (tokenize p v).bind fun t =>
      (structLoop ps vs).map fun ts => t :: ts
termination_by ps vs => (sizeOf ps, sizeOf vs)

end

/-- Decimal digit bytes of `v`, most significant first, by fuel recursion
(each step divides by 10, so fuel 256 is exact for every value below
`10 ^ 256`). -/
def decDigits : Nat → Nat → List Nat
  | 0, _ => []
  | fuel + 1, v => if v < 10 then [48 + v] else decDigits fuel (v / 10) ++ [48 + v % 10]

/-- Decimal ASCII text of a `U256` value, as `i.to_string()` formats it — the
plain unsigned decimal representation (every 256-bit word is below
`10 ^ 256`, so fuel 256 is exact). -/
def decimalAscii (v : Nat) : List Nat := decDigits 256 v

mutual

/-- The `tokenize_out` of `lib.rs`: surface a decoded token as a host value.
Byte-like leaves become `0x`-prefixed lowercase hex text; `Uint` and `Int`
both surface the underlying `U256` via `to_string()`, i.e. as unsigned
decimal text; composites become host arrays. -/
def tokenize_out : Token → JsValue
  | .Bool b => .bool b
  | .String s => .str s
  | .Address a => .str ([48, 120] ++ hexEncode a)
  | .Bytes bs => .str ([48, 120] ++ hexEncode bs)
  | .FixedBytes bs => .str ([48, 120] ++ hexEncode bs)
  | .Uint v => .str (decimalAscii v)
  | .Int v => .str (decimalAscii v)
  | .Array ts => .arr (tokenizeOutList ts)
  | .FixedArray ts => .arr (tokenizeOutList ts)
  | .Tuple ts => .arr (tokenizeOutList ts)

/-- Member loop of `tokenize_out` for composite tokens. -/
def tokenizeOutList : List Token → List JsValue
  | [] => []
  | t :: ts => tokenize_out t :: tokenizeOutList ts

end

/-- Modelled from the spec (1, 6): one parsed interface entry.  Interface ids
and function names are opaque identifiers; the 4-byte selector is supplied
externally (spec 4.2) and is data of the function. -/
structure AbiFunction where
  name : Nat
  selector : List Nat
  inputs : List ParamType
  outputs : List ParamType

/-- Modelled from the spec (6): a loaded interface, its functions in
declaration order. -/
abbrev Contract := List AbiFunction

/-- Modelled from the spec (6): the registry of loaded interfaces by id. -/
abbrev Registry := List (Nat × Contract)

/-- Modelled from the spec (6): look an interface up by id. -/
def lookupReg (reg : Registry) (id : Nat) : Option Contract :=
  List.lookup id reg

/-- Modelled from the spec (6): `ethabi`'s `functions_by_name` — all
functions sharing the name, in declaration order; an absent name is an
error (which the facade unwraps). -/
def functionsByName (c : Contract) (fname : Nat) : Option (List AbiFunction) :=
  match c.filter fun f => f.name == fname with
  | [] => none
  | fs => some fs

/-- The `[0]` indexing of `lib.rs`: the first function of the name group. -/
def resolveFunction (c : Contract) (fname : Nat) : Option AbiFunction :=
  (functionsByName c fname).bind List.head?

/-- The `parse_tokens` of `lib.rs`: tokenize each (type, value) pair in
order, stopping at the first failure. -/
def parse_tokens : List (ParamType × JsValue) → PRes (List Token)
  | [] => .ok []
  | (p, v) :: rest => (tokenize p v).bind fun t =>
      (parse_tokens rest).map fun ts => t :: ts

/-- Body of `encode_input` once the function is resolved: `parse_tokens`
followed by `Function::encode_input` (which shape-checks the tokens and
prepends the selector), each `.unwrap()`ed — so a tokenization error or a
shape mismatch panics.  The result is `hex::encode` of the bytes, with no
`0x` prefix. -/
def encodeInputWith (f : AbiFunction) (args : List JsValue) : PRes (List Nat) :=
  match parse_tokens (f.inputs.zip args) with
  | .panic => .panic
  | .err _ => .panic
  | .ok tokens =>
    if checkSeq tokens f.inputs then .ok (hexEncode (f.selector ++ abiEncode tokens))
    else .panic

/-- The `encode_input` of `lib.rs`: registry lookup and overload resolution
are `.unwrap()`ed (a missing id or name panics), then the argument array is
zipped against the declared input types (`zip` truncates to the shorter
list, as in Rust) and encoded. -/
def encode_input (reg : Registry) (id fname : Nat) (args : List JsValue) :
    PRes (List Nat) :=
  match lookupReg reg id with
  | none => .panic
  | some c =>
    match resolveFunction c fname with
    | none => .panic
    | some f => encodeInputWith f args

/-- Body of `decode_output` once the function is resolved: strip the optional
prefix, `hex::decode(..).unwrap()`, `Function::decode_output(..).unwrap()`,
then surface each token. -/
def decodeOutputWith (f : AbiFunction) (dataHex : List Nat) : PRes (List JsValue) :=
  match removeHexPrefix dataHex with
  | .panic => .panic
  | .err _ => .panic
  | .ok s =>
    match hexDecode s with
    | none => .panic
    | some data =>
      match abiDecode f.outputs data with
      | none => .panic
      | some tokens => .ok (tokens.map tokenize_out)

/-- The `decode_output` of `lib.rs`. -/
def decode_output (reg : Registry) (id fname : Nat) (dataHex : List Nat) :
    PRes (List JsValue) :=
  match lookupReg reg id with
  | none => .panic
  | some c =>
    match resolveFunction c fname with
    | none => .panic
    | some f => decodeOutputWith f dataHex

/-- Body of `decode_input` once the function is resolved: like
`decode_output` but stripping the 4-byte selector (8 hex digits) first and
decoding against the declared input types. -/
def decodeInputWith (f : AbiFunction) (dataHex : List Nat) : PRes (List JsValue) :=
  match removeBytes4 dataHex with
  | .panic => .panic
  | .err _ => .panic
  | .ok s =>
    match hexDecode s with
    | none => .panic
    | some data =>
      match abiDecode f.inputs data with
      | none => .panic
      | some tokens => .ok (tokens.map tokenize_out)

/-- The `decode_input` of `lib.rs`. -/
def decode_input (reg : Registry) (id fname : Nat) (dataHex : List Nat) :
    PRes (List JsValue) :=
  match lookupReg reg id with
  | none => .panic
  | some c =>
    match resolveFunction c fname with
    | none => .panic
    | some f => decodeInputWith f dataHex

mutual

/-- Realizability bounds on a host value: its text payloads are byte lists
and its sequence/text lengths fit a 256-bit length word (true of any value an
actual JavaScript runtime can hand over). -/
def JsValue.wf : JsValue → Bool
  | .str s => decide (s.length < 2 ^ 256) && s.all fun b => decide (b < 256)
  | .num _ => true
  | .bool _ => true
  | .arr vs => decide (vs.length < 2 ^ 256) && allWf vs
  | .obj _ => true

/-- Every element of a host array is realizable. -/
def allWf : List JsValue → Bool
  | [] => true
  | v :: vs => JsValue.wf v && allWf vs

end

/-! Byte-word arithmetic lemmas. -/

theorem natToBe_length (k n : Nat) : (natToBe k n).length = k := by
  induction k generalizing n with
  | zero => rfl
  | succ k ih => simp [natToBe, ih]

theorem word_length (n : Nat) : (word n).length = 32 := natToBe_length 32 n

theorem beVal_append_one (xs : List Nat) (b : Nat) :
    beVal (xs ++ [b]) = beVal xs * 256 + b := by
  simp [beVal, List.foldl_append]

theorem beVal_natToBe (k n : Nat) : beVal (natToBe k n) = n % 256 ^ k := by
  induction k generalizing n with
  | zero => simp [natToBe, beVal, Nat.mod_one]
  | succ k ih =>
    rw [natToBe, beVal_append_one, ih]
    have h256 : (256 : Nat) ^ (k + 1) = 256 * 256 ^ k := by ring
    rw [h256, Nat.mod_mul]
    ring

theorem beVal_word (n : Nat) (h : n < 2 ^ 256) : beVal (word n) = n := by
  have hpow : (256 : Nat) ^ 32 = 2 ^ 256 := by norm_num
  rw [word, beVal_natToBe, hpow, Nat.mod_eq_of_lt h]

/-! Slice and word framing lemmas. -/

theorem slice_append (X ys Z : List Nat) :
    slice (X ++ ys ++ Z) X.length ys.length = some ys := by
  unfold slice
  rw [if_pos]
  · rw [List.append_assoc, List.drop_left, List.take_left]
  · simp

theorem readWord_append (X Z : List Nat) (n : Nat) (h : n < 2 ^ 256) :
    readWord (X ++ word n ++ Z) X.length = some n := by
  have hs := slice_append X (word n) Z
  rw [word_length] at hs
  rw [readWord, hs, Option.map_some', beVal_word n h]

theorem drop_append_left (X Y : List Nat) (k : Nat) (h : X.length = k) :
    (X ++ Y).drop k = Y := by
  subst h; exact List.drop_left X Y

/-! Layout lemmas for the head/tail assembly. -/

theorem heads_length (ps : List (Bool × List Nat)) :
    ∀ hl tl, (heads hl tl ps).length = partsHeadLen ps := by
  induction ps with
  | nil => intro hl tl; rfl
  | cons pe rest ih =>
    intro hl tl
    obtain ⟨d, e⟩ := pe
    cases d <;> simp [heads, partsHeadLen, ih, word_length]

theorem tails_static (ps : List (Bool × List Nat))
    (h : ∀ pe ∈ ps, pe.1 = false) : tails ps = [] := by
  induction ps with
  | nil => rfl
  | cons pe rest ih =>
    obtain ⟨d, e⟩ := pe
    have hd : d = false := h (d, e) (List.mem_cons_self _ _)
    subst hd
    simp [tails, ih fun q hq => h q (List.mem_cons_of_mem _ hq)]

theorem heads_static_indep (ps : List (Bool × List Nat))
    (h : ∀ pe ∈ ps, pe.1 = false) :
    ∀ hl tl hl' tl', heads hl tl ps = heads hl' tl' ps := by
  induction ps with
  | nil => intro _ _ _ _; rfl
  | cons pe rest ih =>
    intro hl tl hl' tl'
    obtain ⟨d, e⟩ := pe
    have hd : d = false := h (d, e) (List.mem_cons_self _ _)
    subst hd
    simp [heads, ih (fun q hq => h q (List.mem_cons_of_mem _ hq)) hl tl hl' tl']

/-! Membership views of the list-level boolean predicates. -/

theorem allCheck_mem {ts : List Token} {p : ParamType}
    (h : allCheck ts p = true) : ∀ t ∈ ts, typeCheck t p = true := by
  induction ts with
  | nil => intro t ht; cases ht
  | cons u rest ih =>
    rw [allCheck, Bool.and_eq_true] at h
    intro t ht
    rcases List.mem_cons.1 ht with rfl | hmem
    · exact h.1
    · exact ih h.2 t hmem

theorem validAll_mem {ts : List Token}
    (h : validAll ts = true) : ∀ t ∈ ts, Token.valid t = true := by
  induction ts with
  | nil => intro t ht; cases ht
  | cons u rest ih =>
    rw [validAll, Bool.and_eq_true] at h
    intro t ht
    rcases List.mem_cons.1 ht with rfl | hmem
    · exact h.1
    · exact ih h.2 t hmem

theorem wfAll_mem {ps : List ParamType}
    (h : wfAll ps = true) : ∀ p ∈ ps, ParamType.wf p = true := by
  induction ps with
  | nil => intro p hp; cases hp
  | cons q rest ih =>
    rw [wfAll, Bool.and_eq_true] at h
    intro p hp
    rcases List.mem_cons.1 hp with rfl | hmem
    · exact h.1
    · exact ih h.2 p hmem

theorem allWf_mem {vs : List JsValue}
    (h : allWf vs = true) : ∀ v ∈ vs, JsValue.wf v = true := by
  induction vs with
  | nil => intro v hv; cases hv
  | cons u rest ih =>
    rw [allWf, Bool.and_eq_true] at h
    intro v hv
    rcases List.mem_cons.1 hv with rfl | hmem
    · exact h.1
    · exact ih h.2 v hmem

/-! Token dynamism agrees with type dynamism on shape-checked tokens
(well-formedness supplies the positive fixed-array length that makes the
member-wise `any` non-vacuous). -/

theorem anyDyn_const (b : Bool) :
    ∀ ts : List Token, (∀ t ∈ ts, Token.isDyn t = b) → ts ≠ [] →
      anyDyn ts = b := by
  intro ts
  induction ts with
  | nil => intro _ h; exact absurd rfl h
  | cons t rest ih =>
    intro hall _
    cases rest with
    | nil => simp [anyDyn, hall t (List.mem_cons_self _ _)]
    | cons u us =>
      rw [anyDyn, hall t (List.mem_cons_self _ _),
        ih (fun q hq => hall q (List.mem_cons_of_mem _ hq)) (by simp)]
      exact Bool.or_self b

theorem anyDyn_eq_of_pointwise :
    ∀ (ts : List Token) (ps : List ParamType), checkSeq ts ps = true →
      (∀ t p, t ∈ ts → p ∈ ps → typeCheck t p = true →
        Token.isDyn t = isDynT p) →
      anyDyn ts = anyDynT ps := by
  intro ts
  induction ts with
  | nil =>
    intro ps hc _
    cases ps with
    | nil => rfl
    | cons _ _ => simp [checkSeq] at hc
  | cons t rest ih =>
    intro ps hc hpt
    cases ps with
    | nil => simp [checkSeq] at hc
    | cons p qs =>
      rw [checkSeq, Bool.and_eq_true] at hc
      rw [anyDyn, anyDynT,
        hpt t p (List.mem_cons_self _ _) (List.mem_cons_self _ _) hc.1,
        ih qs hc.2 fun t' p' ht hp hc' =>
          hpt t' p' (List.mem_cons_of_mem _ ht) (List.mem_cons_of_mem _ hp) hc']

theorem isDyn_eq_aux :
    ∀ N ty t, sizeOf ty ≤ N → typeCheck t ty = true →
      ParamType.wf ty = true → Token.isDyn t = isDynT ty := by
  intro N
  induction N with
  | zero =>
    intro ty t h
    exact absurd h (by cases ty <;> simp)
  | succ N ih =>
    intro ty t hsz hc hw
    cases ty with
    | Address => cases t <;> simp_all [typeCheck, Token.isDyn, isDynT]
    | Bool => cases t <;> simp_all [typeCheck, Token.isDyn, isDynT]
    | String => cases t <;> simp_all [typeCheck, Token.isDyn, isDynT]
    | Bytes => cases t <;> simp_all [typeCheck, Token.isDyn, isDynT]
    | FixedBytes n => cases t <;> simp_all [typeCheck, Token.isDyn, isDynT]
    | Uint bits => cases t <;> simp_all [typeCheck, Token.isDyn, isDynT]
    | Int bits => cases t <;> simp_all [typeCheck, Token.isDyn, isDynT]
    | Array p => cases t <;> simp_all [typeCheck, Token.isDyn, isDynT]
    | FixedArray p n =>
      cases t <;> simp_all [typeCheck, Token.isDyn, isDynT]
      case FixedArray ts =>
        rw [ParamType.wf, Bool.and_eq_true, decide_eq_true_iff] at hw
        obtain ⟨hlen, hall⟩ := hc
        have hp : sizeOf p ≤ N := by
          have : sizeOf p < sizeOf (ParamType.FixedArray p n) := by
            simp; omega
          omega
        refine anyDyn_const (isDynT p) ts
          (fun t ht => ih p t hp (allCheck_mem hall t ht) hw.2) ?_
        intro hnil
        subst hnil
        simp at hlen
        omega
    | Tuple ps =>
      cases t <;> simp_all [typeCheck, Token.isDyn, isDynT]
      case Tuple ts =>
        refine anyDyn_eq_of_pointwise ts ps hc fun t p ht hp hc' => ?_
        have hps : sizeOf p ≤ N := by
          have h1 : sizeOf p < sizeOf ps := List.sizeOf_lt_of_mem hp
          have h2 : sizeOf ps < sizeOf (ParamType.Tuple ps) := by simp
          omega
        exact ih p t hps hc' (wfAll_mem hw p hp)

theorem isDyn_eq {ty : ParamType} {t : Token} (hc : typeCheck t ty = true)
    (hw : ParamType.wf ty = true) : Token.isDyn t = isDynT ty :=
  isDyn_eq_aux (sizeOf ty) ty t le_rfl hc hw

/-- Round-trip invariant of one type: a shape-checked, representation-valid
token re-emerges from decoding its own encoding, whether it sits inline among
head slots (static) or at the start of a tail region (dynamic), regardless of
surrounding bytes; region lengths stay below `2 ^ 256` so offset words read
back exactly. -/
def RoundTripOK (ty : ParamType) : Prop :=
  ∀ t, typeCheck t ty = true → ParamType.wf ty = true → Token.valid t = true →
    (isDynT ty = false →
      ∀ A B : List Nat, (A ++ encT t ++ B).length < 2 ^ 256 →
        decS ty (A ++ encT t ++ B) A.length
          = some (t, A.length + (encT t).length))
    ∧ (isDynT ty = true →
      ∀ rest : List Nat, (encT t ++ rest).length < 2 ^ 256 →
        decD ty (encT t ++ rest) = some t)

/-- Decoding a token sequence from an enclosing region: `A` is the part of
the region before the heads being walked, `B` the bytes between the last head
and the first tail, `C` trailing bytes; the offset bookkeeping `hl + tl`
always points at the start of the remaining tail content. -/
theorem decL_parts :
    ∀ (ts : List Token) (tys : List ParamType),
      (∀ ty ∈ tys, RoundTripOK ty) →
      checkSeq ts tys = true → wfAll tys = true → validAll ts = true →
      ∀ (A B C R : List Nat) (hl tl : Nat),
        R = A ++ heads hl tl (encParts ts) ++ B ++ tails (encParts ts) ++ C →
        hl + tl = A.length + partsHeadLen (encParts ts) + B.length →
        R.length < 2 ^ 256 →
        decL tys R A.length
          = some (ts, A.length + partsHeadLen (encParts ts)) := by
  intro ts
  induction ts with
  | nil =>
    intro tys hIH hc hw hv A B C R hl tl hreg hoff hlen
    cases tys with
    | nil => simp [decL, encParts, partsHeadLen]
    | cons _ _ => simp [checkSeq] at hc
  | cons t rest ih =>
    intro tys hIH hc hw hv A B C R hl tl hreg hoff hlen
    cases tys with
    | nil => simp [checkSeq] at hc
    | cons ty tys' =>
      rw [checkSeq, Bool.and_eq_true] at hc
      rw [wfAll, Bool.and_eq_true] at hw
      rw [validAll, Bool.and_eq_true] at hv
      have hIH' : ∀ u ∈ tys', RoundTripOK u :=
        fun u hu => hIH u (List.mem_cons_of_mem _ hu)
      have hRT := hIH ty (List.mem_cons_self _ _) t hc.1 hw.1 hv.1
      have hd := isDyn_eq hc.1 hw.1
      simp only [encParts] at hreg hoff ⊢
      rw [hd] at hreg hoff ⊢
      cases hdyn : isDynT ty with
      | false =>
        simp only [heads, tails, partsHeadLen, hdyn, Bool.false_eq_true,
          if_false] at hreg hoff ⊢
        have hshape : R = A ++ encT t ++
            (heads hl tl (encParts rest) ++ B ++ tails (encParts rest) ++ C) := by
          rw [hreg]; simp [List.append_assoc]
        have hstat := hRT.1 hdyn A
          (heads hl tl (encParts rest) ++ B ++ tails (encParts rest) ++ C)
          (by rw [← hshape]; exact hlen)
        rw [← hshape] at hstat
        have hrec := ih tys' hIH' hc.2 hw.2 hv.2 (A ++ encT t) B C R hl tl
          (by rw [hreg]; simp [List.append_assoc])
          (by simp; omega) hlen
        simp only [decL, decH, hdyn, Bool.false_eq_true, if_false, hstat,
          Option.bind_eq_bind, Option.some_bind]
        simp only [List.length_append] at hrec
        rw [hrec]
        simp [Nat.add_assoc]
      | true =>
        simp only [heads, tails, partsHeadLen, hdyn, eq_self_iff_true,
          if_true] at hreg hoff ⊢
        have hH2 : (heads hl (tl + (encT t).length) (encParts rest)).length
            = partsHeadLen (encParts rest) := heads_length _ _ _
        have hRlen : R.length = A.length + (32 +
            (heads hl (tl + (encT t).length) (encParts rest)).length) + B.length
            + ((encT t).length + (tails (encParts rest)).length) + C.length := by
          rw [hreg]; simp [word_length]; omega
        have hofflt : hl + tl < 2 ^ 256 := by
          rw [hH2] at hRlen; omega
        have hread : readWord R A.length = some (hl + tl) := by
          have hshape : R = A ++ word (hl + tl) ++
              (heads hl (tl + (encT t).length) (encParts rest) ++ B ++
                (encT t ++ tails (encParts rest)) ++ C) := by
            rw [hreg]; simp [List.append_assoc]
          rw [hshape]
          exact readWord_append _ _ _ hofflt
        have hdrop : R.drop (hl + tl) = encT t ++ (tails (encParts rest) ++ C) := by
          have hshape : R = (A ++ word (hl + tl) ++
              heads hl (tl + (encT t).length) (encParts rest) ++ B) ++
              (encT t ++ (tails (encParts rest) ++ C)) := by
            rw [hreg]; simp [List.append_assoc]
          rw [hshape]
          apply drop_append_left
          simp [word_length, hH2]
          omega
        have hbound2 : (encT t ++ (tails (encParts rest) ++ C)).length < 2 ^ 256 := by
          rw [← hdrop, List.length_drop]
          omega
        have hdD := hRT.2 hdyn (tails (encParts rest) ++ C) hbound2
        have hrec := ih tys' hIH' hc.2 hw.2 hv.2
          (A ++ word (hl + tl)) (B ++ encT t) C R hl (tl + (encT t).length)
          (by rw [hreg]; simp [List.append_assoc])
          (by simp [word_length]; omega) hlen
        simp only [decL, decH, hdyn, if_true, hread, Option.bind_eq_bind,
          Option.some_bind, hdrop, hdD, Option.pure_def]
        simp only [List.length_append, word_length] at hrec
        rw [hrec]
        simp [Nat.add_assoc]

/-! Helper facts feeding the main round-trip induction. -/

theorem anyDyn_false_mem {ts : List Token} (h : anyDyn ts = false) :
    ∀ t ∈ ts, Token.isDyn t = false := by
  induction ts with
  | nil => intro t ht; cases ht
  | cons u rest ih =>
    rw [anyDyn, Bool.or_eq_false_iff] at h
    intro t ht
    rcases List.mem_cons.1 ht with rfl | hmem
    · exact h.1
    · exact ih h.2 t hmem

theorem encParts_mem {ts : List Token} :
    ∀ pe ∈ encParts ts, ∃ t ∈ ts, pe = (Token.isDyn t, encT t) := by
  induction ts with
  | nil => intro pe hpe; cases hpe
  | cons u rest ih =>
    intro pe hpe
    rw [encParts] at hpe
    rcases List.mem_cons.1 hpe with rfl | hmem
    · exact ⟨u, List.mem_cons_self _ _, rfl⟩
    · obtain ⟨t, ht, rfl⟩ := ih pe hmem
      exact ⟨t, List.mem_cons_of_mem _ ht, rfl⟩

theorem encParts_static_flags {ts : List Token} (h : anyDyn ts = false) :
    ∀ pe ∈ encParts ts, pe.1 = false := by
  intro pe hpe
  obtain ⟨t, ht, rfl⟩ := encParts_mem pe hpe
  exact anyDyn_false_mem h t ht

theorem decN_eq_decL (p : ParamType) :
    ∀ (n : Nat) (R : List Nat) (pos : Nat),
      decN p n R pos = decL (List.replicate n p) R pos := by
  intro n
  induction n with
  | zero => intro R pos; simp [decN, decL, List.replicate]
  | succ n ih =>
    intro R pos
    rw [List.replicate_succ]
    simp only [decN, decL]
    cases decH p R pos with
    | none => simp
    | some tp => simp [ih]

theorem checkSeq_replicate {ts : List Token} {p : ParamType}
    (h : allCheck ts p = true) :
    checkSeq ts (List.replicate ts.length p) = true := by
  induction ts with
  | nil => simp [checkSeq, List.replicate]
  | cons t rest ih =>
    rw [allCheck, Bool.and_eq_true] at h
    simp only [List.length_cons, List.replicate_succ, checkSeq, Bool.and_eq_true]
    exact ⟨h.1, ih h.2⟩

theorem wfAll_replicate {p : ParamType} (h : ParamType.wf p = true) :
    ∀ n : Nat, wfAll (List.replicate n p) = true := by
  intro n
  induction n with
  | zero => simp [wfAll, List.replicate]
  | succ n ih => simp only [List.replicate_succ, wfAll, Bool.and_eq_true]; exact ⟨h, ih⟩

theorem pad32_eq_32 {n : Nat} (h1 : 1 ≤ n) (h2 : n ≤ 32) : pad32 n = 32 := by
  unfold pad32
  omega

theorem zeros_length (n : Nat) : (zeros n).length = n := List.length_replicate n 0

/-- Every well-formed type satisfies the round-trip invariant, by strong
induction on the size of the type descriptor. -/
theorem roundTripOK_aux : ∀ N ty, sizeOf ty ≤ N → RoundTripOK ty := by
  intro N
  induction N with
  | zero =>
    intro ty h
    exact absurd h (by cases ty <;> simp)
  | succ N ih =>
    intro ty hsz t hc hw hv
    cases ty with
    | Address =>
      cases t <;> simp only [typeCheck, Bool.false_eq_true] at hc
      case Address a =>
      refine ⟨fun _ A B hblen => ?_, fun hdyn => absurd hdyn (by simp [isDynT])⟩
      have ha : a.length = 20 := by simpa using hc
      have hshape : A ++ encT (.Address a) ++ B = (A ++ zeros 12) ++ a ++ B := by
        simp [encT, List.append_assoc]
      have hslice : slice (A ++ encT (.Address a) ++ B) (A.length + 12) 20 = some a := by
        rw [hshape]
        have h0 := slice_append (A ++ zeros 12) a B
        simpa [zeros_length, ha] using h0
      simp only [decS, hslice, Option.bind_eq_bind, Option.some_bind, Option.pure_def]
      simp [encT, zeros_length, ha]
    | Bool =>
      cases t <;> simp only [typeCheck, Bool.false_eq_true] at hc
      case Bool b =>
      refine ⟨fun _ A B hblen => ?_, fun hdyn => absurd hdyn (by simp [isDynT])⟩
      cases b
      · have hread : readWord (A ++ (word 0 ++ B)) A.length = some 0 := by
          simpa using readWord_append A B 0 (by norm_num)
        simp only [encT, cond_false, List.append_assoc, decS, Option.bind_eq_bind,
          hread, Option.some_bind, Option.pure_def]
        simp [word_length]
      · have hread : readWord (A ++ (word 1 ++ B)) A.length = some 1 := by
          simpa using readWord_append A B 1 (by norm_num)
        simp only [encT, cond_true, List.append_assoc, decS, Option.bind_eq_bind,
          hread, Option.some_bind, Option.pure_def]
        simp [word_length]
    | Uint bits =>
      cases t <;> simp only [typeCheck, Bool.false_eq_true] at hc
      case Uint v =>
      refine ⟨fun _ A B hblen => ?_, fun hdyn => absurd hdyn (by simp [isDynT])⟩
      have hvlt : v < 2 ^ 256 := by simpa [Token.valid] using hv
      have hread : readWord (A ++ (word v ++ B)) A.length = some v := by
        simpa using readWord_append A B v hvlt
      simp only [encT, List.append_assoc, decS, Option.bind_eq_bind, hread,
        Option.some_bind, Option.pure_def]
      simp [word_length]
    | Int bits =>
      cases t <;> simp only [typeCheck, Bool.false_eq_true] at hc
      case Int v =>
      refine ⟨fun _ A B hblen => ?_, fun hdyn => absurd hdyn (by simp [isDynT])⟩
      have hvlt : v < 2 ^ 256 := by simpa [Token.valid] using hv
      have hread : readWord (A ++ (word v ++ B)) A.length = some v := by
        simpa using readWord_append A B v hvlt
      simp only [encT, List.append_assoc, decS, Option.bind_eq_bind, hread,
        Option.some_bind, Option.pure_def]
      simp [word_length]
    | FixedBytes n =>
      cases t <;> simp only [typeCheck, Bool.false_eq_true] at hc
      case FixedBytes bs =>
      refine ⟨fun _ A B hblen => ?_, fun hdyn => absurd hdyn (by simp [isDynT])⟩
      have hbl : bs.length = n := by simpa using hc
      have hn : 1 ≤ n ∧ n ≤ 32 := by simpa [ParamType.wf] using hw
      have hpad : pad32 bs.length = 32 := by
        rw [hbl]; exact pad32_eq_32 hn.1 hn.2
      have hshape : A ++ encT (.FixedBytes bs) ++ B
          = A ++ bs ++ (zeros (pad32 bs.length - bs.length) ++ B) := by
        simp [encT, List.append_assoc]
      have hslice : slice (A ++ encT (.FixedBytes bs) ++ B) A.length n = some bs := by
        rw [hshape]
        have h0 := slice_append A bs (zeros (pad32 bs.length - bs.length) ++ B)
        simpa [hbl] using h0
      simp only [decS, hslice, Option.bind_eq_bind, Option.some_bind, Option.pure_def]
      have hel : (encT (.FixedBytes bs)).length = 32 := by
        simp only [encT, List.length_append, zeros_length]
        omega
      simp [hel]
    | String =>
      cases t <;> simp only [typeCheck, Bool.false_eq_true] at hc
      case String bs =>
      refine ⟨fun hstat => absurd hstat (by simp [isDynT]), fun _ rest hblen => ?_⟩
      rw [Token.valid, Bool.and_eq_true] at hv
      have hlt : bs.length < 2 ^ 256 := by simpa using hv.1
      have hread : readWord (encT (.String bs) ++ rest) 0 = some bs.length := by
        have h0 := readWord_append []
          (bs ++ (zeros (pad32 bs.length - bs.length) ++ rest)) bs.length hlt
        simpa [encT, List.append_assoc] using h0
      have hslice : slice (encT (.String bs) ++ rest) 32 bs.length = some bs := by
        have h0 := slice_append (word bs.length) bs
          (zeros (pad32 bs.length - bs.length) ++ rest)
        simpa [encT, word_length, List.append_assoc] using h0
      simp [decD, hread, hslice, Option.bind_eq_bind, Option.pure_def]
    | Bytes =>
      cases t <;> simp only [typeCheck, Bool.false_eq_true] at hc
      case Bytes bs =>
      refine ⟨fun hstat => absurd hstat (by simp [isDynT]), fun _ rest hblen => ?_⟩
      rw [Token.valid, Bool.and_eq_true] at hv
      have hlt : bs.length < 2 ^ 256 := by simpa using hv.1
      have hread : readWord (encT (.Bytes bs) ++ rest) 0 = some bs.length := by
        have h0 := readWord_append []
          (bs ++ (zeros (pad32 bs.length - bs.length) ++ rest)) bs.length hlt
        simpa [encT, List.append_assoc] using h0
      have hslice : slice (encT (.Bytes bs) ++ rest) 32 bs.length = some bs := by
        have h0 := slice_append (word bs.length) bs
          (zeros (pad32 bs.length - bs.length) ++ rest)
        simpa [encT, word_length, List.append_assoc] using h0
      simp [decD, hread, hslice, Option.bind_eq_bind, Option.pure_def]
    | Array p =>
      cases t <;> simp only [typeCheck, Bool.false_eq_true] at hc
      case Array ts =>
      refine ⟨fun hstat => absurd hstat (by simp [isDynT]), fun _ rest hblen => ?_⟩
      rw [Token.valid, Bool.and_eq_true] at hv
      rw [ParamType.wf] at hw
      have hlt : ts.length < 2 ^ 256 := by simpa using hv.1
      have hp : sizeOf p ≤ N := by
        have : sizeOf p < sizeOf (ParamType.Array p) := by simp
        omega
      have hread : readWord (encT (.Array ts) ++ rest) 0 = some ts.length := by
        have h0 := readWord_append [] (assemble (encParts ts) ++ rest) ts.length hlt
        simpa [encT, List.append_assoc] using h0
      have hdrop : (encT (.Array ts) ++ rest).drop 32 = assemble (encParts ts) ++ rest := by
        have hsh : encT (.Array ts) ++ rest
            = word ts.length ++ (assemble (encParts ts) ++ rest) := by
          simp [encT, List.append_assoc]
        rw [hsh]
        exact drop_append_left _ _ _ (word_length _)
      have hb2 : (assemble (encParts ts) ++ rest).length < 2 ^ 256 := by
        have h0 : (encT (.Array ts) ++ rest).length
            = 32 + (assemble (encParts ts) ++ rest).length := by
          simp only [encT, List.length_append, word_length]
          omega
        omega
      have hrec := decL_parts ts (List.replicate ts.length p)
        (fun u hu => by rw [List.eq_of_mem_replicate hu]; exact ih p hp)
        (checkSeq_replicate hc) (wfAll_replicate hw _) hv.2
        [] [] rest (assemble (encParts ts) ++ rest) (partsHeadLen (encParts ts)) 0
        (by simp [assemble, List.append_assoc]) (by simp)
        hb2
      simp only [List.length_nil, List.nil_append, Nat.zero_add] at hrec
      simp only [decD, hread, Option.bind_eq_bind, Option.some_bind, Option.pure_def, hdrop]
      rw [decN_eq_decL, hrec]
      simp
    | FixedArray p n =>
      cases t <;> simp only [typeCheck, Bool.false_eq_true] at hc
      case FixedArray ts =>
      have hdynflag : Token.isDyn (.FixedArray ts) = isDynT (.FixedArray p n) :=
        isDyn_eq (by simpa [typeCheck] using hc) hw
      rw [Bool.and_eq_true] at hc
      have hlen_eq : ts.length = n := by simpa using hc.1
      rw [ParamType.wf, Bool.and_eq_true] at hw
      have hvall : validAll ts = true := by simpa [Token.valid] using hv
      have hp : sizeOf p ≤ N := by
        have : sizeOf p < sizeOf (ParamType.FixedArray p n) := by simp; omega
        omega
      have hIHm : ∀ u ∈ List.replicate ts.length p, RoundTripOK u :=
        fun u hu => by rw [List.eq_of_mem_replicate hu]; exact ih p hp
      constructor
      · intro hstat A B hblen
        have hflags : ∀ pe ∈ encParts ts, pe.1 = false := by
          apply encParts_static_flags
          rw [show anyDyn ts = Token.isDyn (.FixedArray ts) from by simp [Token.isDyn],
            hdynflag, hstat]
        have htails : tails (encParts ts) = [] := tails_static _ hflags
        have hencT : encT (.FixedArray ts)
            = heads (A.length + partsHeadLen (encParts ts)) 0 (encParts ts) := by
          rw [show encT (.FixedArray ts) = assemble (encParts ts) from by simp [encT],
            assemble, htails, List.append_nil]
          exact heads_static_indep _ hflags _ _ _ _
        have hrec := decL_parts ts (List.replicate ts.length p) hIHm
          (checkSeq_replicate hc.2) (wfAll_replicate hw.2 _) hvall
          A [] B (A ++ encT (.FixedArray ts) ++ B)
          (A.length + partsHeadLen (encParts ts)) 0
          (by rw [hencT, htails]; simp)
          (by simp) hblen
        simp only [decS, Option.bind_eq_bind, Option.pure_def]
        rw [← hlen_eq, decN_eq_decL, hrec]
        have hel : (encT (.FixedArray ts)).length = partsHeadLen (encParts ts) := by
          rw [hencT, heads_length]
        simp [hel]
      · intro hdyn rest hblen
        have hrec := decL_parts ts (List.replicate ts.length p) hIHm
          (checkSeq_replicate hc.2) (wfAll_replicate hw.2 _) hvall
          [] [] rest (encT (.FixedArray ts) ++ rest)
          (partsHeadLen (encParts ts)) 0
          (by simp [encT, assemble, List.append_assoc]) (by simp) hblen
        simp only [List.length_nil, List.nil_append, Nat.zero_add] at hrec
        simp only [decD, Option.bind_eq_bind, Option.pure_def]
        rw [← hlen_eq, decN_eq_decL, hrec]
        simp
    | Tuple ps =>
      cases t <;> simp only [typeCheck, Bool.false_eq_true] at hc
      case Tuple ts =>
      have hdynflag : Token.isDyn (.Tuple ts) = isDynT (.Tuple ps) :=
        isDyn_eq (by simpa [typeCheck] using hc) hw
      rw [ParamType.wf] at hw
      have hvall : validAll ts = true := by simpa [Token.valid] using hv
      have hIHm : ∀ u ∈ ps, RoundTripOK u := by
        intro u hu
        have h1 : sizeOf u < sizeOf ps := List.sizeOf_lt_of_mem hu
        have h2 : sizeOf (ParamType.Tuple ps) = 1 + sizeOf ps := by simp
        exact ih u (by omega)
      constructor
      · intro hstat A B hblen
        have hflags : ∀ pe ∈ encParts ts, pe.1 = false := by
          apply encParts_static_flags
          rw [show anyDyn ts = Token.isDyn (.Tuple ts) from by simp [Token.isDyn],
            hdynflag, hstat]
        have htails : tails (encParts ts) = [] := tails_static _ hflags
        have hencT : encT (.Tuple ts)
            = heads (A.length + partsHeadLen (encParts ts)) 0 (encParts ts) := by
          rw [show encT (.Tuple ts) = assemble (encParts ts) from by simp [encT],
            assemble, htails, List.append_nil]
          exact heads_static_indep _ hflags _ _ _ _
        have hrec := decL_parts ts ps hIHm hc hw hvall
          A [] B (A ++ encT (.Tuple ts) ++ B)
          (A.length + partsHeadLen (encParts ts)) 0
          (by rw [hencT, htails]; simp)
          (by simp) hblen
        simp only [decS, Option.bind_eq_bind, Option.pure_def]
        rw [hrec]
        have hel : (encT (.Tuple ts)).length = partsHeadLen (encParts ts) := by
          rw [hencT, heads_length]
        simp [hel]
      · intro hdyn rest hblen
        have hrec := decL_parts ts ps hIHm hc hw hvall
          [] [] rest (encT (.Tuple ts) ++ rest)
          (partsHeadLen (encParts ts)) 0
          (by simp [encT, assemble, List.append_assoc]) (by simp) hblen
        simp only [List.length_nil, List.nil_append, Nat.zero_add] at hrec
        simp only [decD, Option.bind_eq_bind, Option.pure_def]
        rw [hrec]
        simp

/-- Round-trip invariant, for every type. -/
theorem roundTripOK (ty : ParamType) : RoundTripOK ty :=
  roundTripOK_aux (sizeOf ty) ty le_rfl

/-- Top-level round trip of the modelled codec: decoding the encoding of a
shape-checked, representation-valid token sequence recovers it exactly. -/
theorem abi_roundtrip (tys : List ParamType) (ts : List Token)
    (hc : checkSeq ts tys = true) (hw : wfAll tys = true)
    (hv : validAll ts = true) (hlen : (abiEncode ts).length < 2 ^ 256) :
    abiDecode tys (abiEncode ts) = some ts := by
  have h := decL_parts ts tys (fun ty _ => roundTripOK ty) hc hw hv
    [] [] [] (abiEncode ts) (partsHeadLen (encParts ts)) 0
    (by simp [abiEncode, assemble]) (by simp) hlen
  simp only [List.length_nil, Nat.zero_add] at h
  simp [abiDecode, h]

/-! Output-side facts about the hex and numeric text helpers. -/

theorem hexVal_lt {b v : Nat} (h : hexVal b = some v) : v < 16 := by
  unfold hexVal at h
  split_ifs at h with h1 h2 h3 <;> simp at h <;> omega

theorem hexDecode_lt :
    ∀ (s bs : List Nat), hexDecode s = some bs → ∀ b ∈ bs, b < 256
  | [], bs, h => by
    simp only [hexDecode, Option.some.injEq] at h
    subst h
    intro b hb
    cases hb
  | [c], bs, h => by simp [hexDecode] at h
  | c1 :: c2 :: rest, bs, h => by
    simp only [hexDecode, Option.bind_eq_bind] at h
    cases hv1 : hexVal c1 with
    | none => rw [hv1] at h; simp at h
    | some v1 =>
      cases hv2 : hexVal c2 with
      | none => rw [hv1, hv2] at h; simp at h
      | some v2 =>
        cases hr : hexDecode rest with
        | none => rw [hv1, hv2, hr] at h; simp at h
        | some r =>
          rw [hv1, hv2, hr] at h
          simp only [Option.some_bind, Option.pure_def, Option.some.injEq] at h
          subst h
          intro b hb
          rcases List.mem_cons.1 hb with rfl | hmem
          · have b1 := hexVal_lt hv1
            have b2 := hexVal_lt hv2
            omega
          · exact hexDecode_lt rest r hr b hmem

theorem hexDecode_length :
    ∀ (s bs : List Nat), hexDecode s = some bs → 2 * bs.length = s.length
  | [], bs, h => by
    simp only [hexDecode, Option.some.injEq] at h
    subst h
    rfl
  | [c], bs, h => by simp [hexDecode] at h
  | c1 :: c2 :: rest, bs, h => by
    simp only [hexDecode, Option.bind_eq_bind] at h
    cases hv1 : hexVal c1 with
    | none => rw [hv1] at h; simp at h
    | some v1 =>
      cases hv2 : hexVal c2 with
      | none => rw [hv1, hv2] at h; simp at h
      | some v2 =>
        cases hr : hexDecode rest with
        | none => rw [hv1, hv2, hr] at h; simp at h
        | some r =>
          rw [hv1, hv2, hr] at h
          simp only [Option.some_bind, Option.pure_def, Option.some.injEq] at h
          subst h
          have := hexDecode_length rest r hr
          simp only [List.length_cons]
          omega

theorem removeHexPrefix_ok {s r : List Nat} (h : removeHexPrefix s = .ok r) :
    r.length ≤ s.length := by
  unfold removeHexPrefix at h
  split_ifs at h with h1 h2
  · cases h
    simp
  · cases h
    exact le_rfl

theorem lt_address_ok {s a : List Nat}
    (h : LenientTokenizer.tokenize_address s = .ok a) :
    a.length = 20 ∧ ∀ b ∈ a, b < 256 := by
  unfold LenientTokenizer.tokenize_address at h
  split at h
  · cases h
  next bs heq =>
    split_ifs at h with h1
    · cases h
      exact ⟨h1, hexDecode_lt s _ heq⟩

theorem lt_bytes_ok {s bs : List Nat}
    (h : LenientTokenizer.tokenize_bytes s = .ok bs) :
    (∀ b ∈ bs, b < 256) ∧ 2 * bs.length = s.length := by
  unfold LenientTokenizer.tokenize_bytes at h
  split at h
  · cases h
  next r heq =>
    cases h
    exact ⟨hexDecode_lt s _ heq, hexDecode_length s _ heq⟩

theorem lt_fixed_bytes_ok {s bs : List Nat} {len : Nat}
    (h : LenientTokenizer.tokenize_fixed_bytes s len = .ok bs) :
    ∀ b ∈ bs, b < 256 := by
  unfold LenientTokenizer.tokenize_fixed_bytes at h
  split at h
  · cases h
  next r heq =>
    split_ifs at h with h1
    · cases h
      exact hexDecode_lt s _ heq

theorem lt_uint_ok {s : List Nat} {v : Nat}
    (h : LenientTokenizer.tokenize_uint s = .ok v) : v < 2 ^ 256 := by
  unfold LenientTokenizer.tokenize_uint at h
  split at h
  · cases h
  next w heq =>
    split_ifs at h with h1
    · cases h
      exact h1

theorem lt_int_ok {s : List Nat} {v : Nat}
    (h : LenientTokenizer.tokenize_int s = .ok v) : v < 2 ^ 256 := by
  unfold LenientTokenizer.tokenize_int at h
  split_ifs at h with h1
  · split at h
    · cases h
    next m heq =>
      split_ifs at h with h2 h3
      · cases h
        positivity
      · cases h
        omega
  · split at h
    · cases h
    next w heq =>
      split_ifs at h with h2
      · cases h
        exact h2

/-! Successful leaf tokenization produces representation-valid payloads. -/

theorem tokenize_address_ok {x : JsValue} {a : List Nat}
    (h : tokenize_address x = .ok a) :
    a.length = 20 ∧ ∀ b ∈ a, b < 256 := by
  cases x with
  | str s =>
    simp only [tokenize_address] at h
    cases hr : removeHexPrefix s with
    | ok r =>
      rw [hr] at h
      simp only [PRes.bind] at h
      cases hl : LenientTokenizer.tokenize_address r with
      | ok a2 =>
        rw [hl] at h
        simp only [liftE] at h
        cases h
        exact lt_address_ok hl
      | error e =>
        rw [hl] at h
        simp [liftE] at h
    | err e => rw [hr] at h; simp [PRes.bind] at h
    | panic => rw [hr] at h; simp [PRes.bind] at h
  | num t => simp only [tokenize_address] at h; cases h
  | bool b => simp only [tokenize_address] at h; cases h
  | arr vs => simp only [tokenize_address] at h; cases h
  | obj fs => simp only [tokenize_address] at h; cases h

theorem tokenize_string_ok {x : JsValue} {s' : List Nat}
    (h : tokenize_string x = .ok s') : x = .str s' := by
  cases x with
  | str s =>
    simp only [tokenize_string, LenientTokenizer.tokenize_string, liftE] at h
    cases h
    rfl
  | num t => simp only [tokenize_string] at h; cases h
  | bool b => simp only [tokenize_string] at h; cases h
  | arr vs => simp only [tokenize_string] at h; cases h
  | obj fs => simp only [tokenize_string] at h; cases h

theorem tokenize_bytes_ok {x : JsValue} {bs : List Nat}
    (h : tokenize_bytes x = .ok bs) :
    (∀ b ∈ bs, b < 256) ∧ ∃ s, x = .str s ∧ bs.length ≤ s.length := by
  cases x with
  | str s =>
    simp only [tokenize_bytes] at h
    cases hr : removeHexPrefix s with
    | ok r =>
      rw [hr] at h
      simp only [PRes.bind] at h
      cases hl : LenientTokenizer.tokenize_bytes r with
      | ok bs2 =>
        rw [hl] at h
        simp only [liftE] at h
        cases h
        obtain ⟨hlt, hlen⟩ := lt_bytes_ok hl
        have := removeHexPrefix_ok hr
        exact ⟨hlt, s, rfl, by omega⟩
      | error e => rw [hl] at h; simp [liftE] at h
    | err e => rw [hr] at h; simp [PRes.bind] at h
    | panic => rw [hr] at h; simp [PRes.bind] at h
  | num t => simp only [tokenize_bytes] at h; cases h
  | bool b => simp only [tokenize_bytes] at h; cases h
  | arr vs => simp only [tokenize_bytes] at h; cases h
  | obj fs => simp only [tokenize_bytes] at h; cases h

theorem tokenize_fixed_bytes_ok {x : JsValue} {bs : List Nat} {len : Nat}
    (h : tokenize_fixed_bytes x len = .ok bs) :
    ∀ b ∈ bs, b < 256 := by
  cases x with
  | str s =>
    simp only [tokenize_fixed_bytes] at h
    cases hr : removeHexPrefix s with
    | ok r =>
      rw [hr] at h
      simp only [PRes.bind] at h
      cases hl : LenientTokenizer.tokenize_fixed_bytes r len with
      | ok bs2 =>
        rw [hl] at h
        simp only [liftE] at h
        cases h
        exact lt_fixed_bytes_ok hl
      | error e => rw [hl] at h; simp [liftE] at h
    | err e => rw [hr] at h; simp [PRes.bind] at h
    | panic => rw [hr] at h; simp [PRes.bind] at h
  | num t => simp only [tokenize_fixed_bytes] at h; cases h
  | bool b => simp only [tokenize_fixed_bytes] at h; cases h
  | arr vs => simp only [tokenize_fixed_bytes] at h; cases h
  | obj fs => simp only [tokenize_fixed_bytes] at h; cases h

theorem tokenize_uint_ok {x : JsValue} {v : Nat}
    (h : tokenize_uint x = .ok v) : v < 2 ^ 256 := by
  cases x with
  | str s =>
    simp only [tokenize_uint] at h
    cases hl : LenientTokenizer.tokenize_uint s with
    | ok v2 => rw [hl] at h; simp only [liftE] at h; cases h; exact lt_uint_ok hl
    | error e => rw [hl] at h; simp [liftE] at h
  | num s =>
    simp only [tokenize_uint] at h
    cases hl : LenientTokenizer.tokenize_uint s with
    | ok v2 => rw [hl] at h; simp only [liftE] at h; cases h; exact lt_uint_ok hl
    | error e => rw [hl] at h; simp [liftE] at h
  | bool b => simp only [tokenize_uint] at h; cases h
  | arr vs => simp only [tokenize_uint] at h; cases h
  | obj fs => simp only [tokenize_uint] at h; cases h

theorem tokenize_int_ok {x : JsValue} {v : Nat}
    (h : tokenize_int x = .ok v) : v < 2 ^ 256 := by
  cases x with
  | str s =>
    simp only [tokenize_int] at h
    cases hl : LenientTokenizer.tokenize_int s with
    | ok v2 => rw [hl] at h; simp only [liftE] at h; cases h; exact lt_int_ok hl
    | error e => rw [hl] at h; simp [liftE] at h
  | num s =>
    simp only [tokenize_int] at h
    cases hl : LenientTokenizer.tokenize_int s with
    | ok v2 => rw [hl] at h; simp only [liftE] at h; cases h; exact lt_int_ok hl
    | error e => rw [hl] at h; simp [liftE] at h
  | bool b => simp only [tokenize_int] at h; cases h
  | arr vs => simp only [tokenize_int] at h; cases h
  | obj fs => simp only [tokenize_int] at h; cases h

/-! Element-loop soundness: member results, lengths, and validity. -/

theorem mapTokenize_ok :
    ∀ (vs : List JsValue) (p : ParamType) (ts : List Token),
      mapTokenize p vs = .ok ts →
      (∀ v ∈ vs, ∀ t, tokenize p v = .ok t → Token.valid t = true) →
      validAll ts = true ∧ ts.length = vs.length := by
  intro vs
  induction vs with
  | nil =>
    intro p ts h _
    simp only [mapTokenize] at h
    cases h
    exact ⟨rfl, rfl⟩
  | cons v rest ih =>
    intro p ts h hmem
    simp only [mapTokenize] at h
    cases ht : tokenize p v with
    | ok t1 =>
      rw [ht] at h
      simp only [PRes.bind] at h
      cases hm : mapTokenize p rest with
      | ok ts1 =>
        rw [hm] at h
        simp only [PRes.map] at h
        cases h
        have hrec := ih p ts1 hm
          fun u hu t' ht' => hmem u (List.mem_cons_of_mem _ hu) t' ht'
        refine ⟨?_, by simp [hrec.2]⟩
        rw [validAll, Bool.and_eq_true]
        exact ⟨hmem v (List.mem_cons_self _ _) t1 ht, hrec.1⟩
      | err e => rw [hm] at h; simp [PRes.map] at h
      | panic => rw [hm] at h; simp [PRes.map] at h
    | err e => rw [ht] at h; simp [PRes.bind] at h
    | panic => rw [ht] at h; simp [PRes.bind] at h

theorem structLoop_ok :
    ∀ (vs : List JsValue) (ps : List ParamType) (ts : List Token),
      structLoop ps vs = .ok ts →
      (∀ v ∈ vs, ∀ p t, tokenize p v = .ok t → Token.valid t = true) →
      validAll ts = true ∧ ts.length = vs.length ∧ vs.length ≤ ps.length := by
  intro vs
  induction vs with
  | nil =>
    intro ps ts h _
    cases ps <;> simp only [structLoop] at h <;> cases h <;>
      exact ⟨rfl, rfl, by simp⟩
  | cons v rest ih =>
    intro ps ts h hmem
    cases ps with
    | nil => simp only [structLoop] at h; cases h
    | cons p ps' =>
      simp only [structLoop] at h
      cases ht : tokenize p v with
      | ok t1 =>
        rw [ht] at h
        simp only [PRes.bind] at h
        cases hm : structLoop ps' rest with
        | ok ts1 =>
          rw [hm] at h
          simp only [PRes.map] at h
          cases h
          have hrec := ih ps' ts1 hm
            fun u hu p' t' ht' => hmem u (List.mem_cons_of_mem _ hu) p' t' ht'
          refine ⟨?_, by simp [hrec.2.1], by simp; omega⟩
          rw [validAll, Bool.and_eq_true]
          exact ⟨hmem v (List.mem_cons_self _ _) p t1 ht, hrec.1⟩
        | err e => rw [hm] at h; simp [PRes.map] at h
        | panic => rw [hm] at h; simp [PRes.map] at h
      | err e => rw [ht] at h; simp [PRes.bind] at h
      | panic => rw [ht] at h; simp [PRes.bind] at h

/-- Any token built by `tokenize` from a realizable host value satisfies the
representation invariant `Token.valid`. -/
theorem tokenize_valid_aux :
    ∀ M (x : JsValue), sizeOf x ≤ M → ∀ ty t, JsValue.wf x = true →
      tokenize ty x = .ok t → Token.valid t = true := by
  intro M
  induction M with
  | zero =>
    intro x h
    exact absurd h (by cases x <;> simp)
  | succ M ih =>
    intro x hsz ty t hwf htok
    cases ty with
    | Address =>
      simp only [tokenize] at htok
      cases hta : tokenize_address x with
      | ok a =>
        rw [hta] at htok
        simp only [PRes.map] at htok
        cases htok
        simp only [Token.valid, List.all_eq_true, decide_eq_true_eq]
        exact fun b hb => (tokenize_address_ok hta).2 b hb
      | err e => rw [hta] at htok; simp [PRes.map] at htok
      | panic => rw [hta] at htok; simp [PRes.map] at htok
    | Bool =>
      simp only [tokenize] at htok
      cases hta : tokenize_bool x with
      | ok b =>
        rw [hta] at htok
        simp only [PRes.map] at htok
        cases htok
        simp [Token.valid]
      | err e => rw [hta] at htok; simp [PRes.map] at htok
      | panic => rw [hta] at htok; simp [PRes.map] at htok
    | String =>
      simp only [tokenize] at htok
      cases hta : tokenize_string x with
      | ok s2 =>
        rw [hta] at htok
        simp only [PRes.map] at htok
        cases htok
        have hx := tokenize_string_ok hta
        subst hx
        simpa [Token.valid, JsValue.wf] using hwf
      | err e => rw [hta] at htok; simp [PRes.map] at htok
      | panic => rw [hta] at htok; simp [PRes.map] at htok
    | Bytes =>
      simp only [tokenize] at htok
      cases hta : tokenize_bytes x with
      | ok bs =>
        rw [hta] at htok
        simp only [PRes.map] at htok
        cases htok
        obtain ⟨hbyte, s, hx, hlen⟩ := tokenize_bytes_ok hta
        subst hx
        simp only [JsValue.wf, Bool.and_eq_true, decide_eq_true_eq] at hwf
        simp only [Token.valid, Bool.and_eq_true, decide_eq_true_eq,
          List.all_eq_true]
        exact ⟨by omega, fun b hb => hbyte b hb⟩
      | err e => rw [hta] at htok; simp [PRes.map] at htok
      | panic => rw [hta] at htok; simp [PRes.map] at htok
    | FixedBytes len =>
      simp only [tokenize] at htok
      cases hta : tokenize_fixed_bytes x len with
      | ok bs =>
        rw [hta] at htok
        simp only [PRes.map] at htok
        cases htok
        simp only [Token.valid, List.all_eq_true, decide_eq_true_eq]
        exact fun b hb => tokenize_fixed_bytes_ok hta b hb
      | err e => rw [hta] at htok; simp [PRes.map] at htok
      | panic => rw [hta] at htok; simp [PRes.map] at htok
    | Uint bits =>
      simp only [tokenize] at htok
      cases hta : tokenize_uint x with
      | ok v =>
        rw [hta] at htok
        simp only [PRes.map] at htok
        cases htok
        simp only [Token.valid, decide_eq_true_eq]
        exact tokenize_uint_ok hta
      | err e => rw [hta] at htok; simp [PRes.map] at htok
      | panic => rw [hta] at htok; simp [PRes.map] at htok
    | Int bits =>
      simp only [tokenize] at htok
      cases hta : tokenize_int x with
      | ok v =>
        rw [hta] at htok
        simp only [PRes.map] at htok
        cases htok
        simp only [Token.valid, decide_eq_true_eq]
        exact tokenize_int_ok hta
      | err e => rw [hta] at htok; simp [PRes.map] at htok
      | panic => rw [hta] at htok; simp [PRes.map] at htok
    | Array p =>
      simp only [tokenize] at htok
      cases hta : tokenize_array x p with
      | ok ts =>
        rw [hta] at htok
        simp only [PRes.map] at htok
        cases htok
        cases x with
        | arr vs =>
          simp only [tokenize_array] at hta
          simp only [JsValue.wf, Bool.and_eq_true, decide_eq_true_eq] at hwf
          have hmem : ∀ v ∈ vs, ∀ t', tokenize p v = .ok t' →
              Token.valid t' = true := by
            intro v hv t' ht'
            have hs : sizeOf v ≤ M := by
              have h1 : sizeOf v < sizeOf vs := List.sizeOf_lt_of_mem hv
              have h2 : sizeOf (JsValue.arr vs) = 1 + sizeOf vs := by simp
              omega
            exact ih v hs p t' (allWf_mem hwf.2 v hv) ht'
          obtain ⟨hva, hlen⟩ := mapTokenize_ok vs p ts hta hmem
          simp only [Token.valid, Bool.and_eq_true, decide_eq_true_eq]
          exact ⟨by omega, hva⟩
        | str s => simp only [tokenize_array] at hta; cases hta
        | num s => simp only [tokenize_array] at hta; cases hta
        | bool b => simp only [tokenize_array] at hta; cases hta
        | obj fs => simp only [tokenize_array] at hta; cases hta
      | err e => rw [hta] at htok; simp [PRes.map] at htok
      | panic => rw [hta] at htok; simp [PRes.map] at htok
    | FixedArray p n =>
      simp only [tokenize] at htok
      cases hta : tokenize_array x p with
      | ok ts =>
        rw [hta] at htok
        simp only [PRes.map] at htok
        cases htok
        cases x with
        | arr vs =>
          simp only [tokenize_array] at hta
          simp only [JsValue.wf, Bool.and_eq_true, decide_eq_true_eq] at hwf
          have hmem : ∀ v ∈ vs, ∀ t', tokenize p v = .ok t' →
              Token.valid t' = true := by
            intro v hv t' ht'
            have hs : sizeOf v ≤ M := by
              have h1 : sizeOf v < sizeOf vs := List.sizeOf_lt_of_mem hv
              have h2 : sizeOf (JsValue.arr vs) = 1 + sizeOf vs := by simp
              omega
            exact ih v hs p t' (allWf_mem hwf.2 v hv) ht'
          obtain ⟨hva, hlen⟩ := mapTokenize_ok vs p ts hta hmem
          simpa [Token.valid] using hva
        | str s => simp only [tokenize_array] at hta; cases hta
        | num s => simp only [tokenize_array] at hta; cases hta
        | bool b => simp only [tokenize_array] at hta; cases hta
        | obj fs => simp only [tokenize_array] at hta; cases hta
      | err e => rw [hta] at htok; simp [PRes.map] at htok
      | panic => rw [hta] at htok; simp [PRes.map] at htok
    | Tuple ps =>
      simp only [tokenize] at htok
      cases hta : tokenize_struct x ps with
      | ok ts =>
        rw [hta] at htok
        simp only [PRes.map] at htok
        cases htok
        cases x with
        | arr vs =>
          simp only [tokenize_struct] at hta
          simp only [JsValue.wf, Bool.and_eq_true, decide_eq_true_eq] at hwf
          have hmem : ∀ v ∈ vs, ∀ p' t', tokenize p' v = .ok t' →
              Token.valid t' = true := by
            intro v hv p' t' ht'
            have hs : sizeOf v ≤ M := by
              have h1 : sizeOf v < sizeOf vs := List.sizeOf_lt_of_mem hv
              have h2 : sizeOf (JsValue.arr vs) = 1 + sizeOf vs := by simp
              omega
            exact ih v hs p' t' (allWf_mem hwf.2 v hv) ht'
          obtain ⟨hva, _, _⟩ := structLoop_ok vs ps ts hta hmem
          simpa [Token.valid] using hva
        | str s => simp only [tokenize_struct] at hta; cases hta
        | num s => simp only [tokenize_struct] at hta; cases hta
        | bool b => simp only [tokenize_struct] at hta; cases hta
        | obj fs => simp only [tokenize_struct] at hta; cases hta
      | err e => rw [hta] at htok; simp [PRes.map] at htok
      | panic => rw [hta] at htok; simp [PRes.map] at htok

/-- Validity of tokens from realizable host values, closed form. -/
theorem tokenize_valid {x : JsValue} {ty : ParamType} {t : Token}
    (hwf : JsValue.wf x = true) (htok : tokenize ty x = .ok t) :
    Token.valid t = true :=
  tokenize_valid_aux (sizeOf x) x le_rfl ty t hwf htok

/-! Positional behaviour of the tuple element loop. -/

theorem structLoop_long :
    ∀ (vs : List JsValue) (ps : List ParamType), ps.length < vs.length →
      ∀ ts, structLoop ps vs ≠ .ok ts := by
  intro vs
  induction vs with
  | nil => intro ps h; simp at h
  | cons v rest ih =>
    intro ps h ts
    cases ps with
    | nil =>
      simp only [structLoop]
      intro hco
      cases hco
    | cons p ps' =>
      simp only [structLoop]
      cases ht : tokenize p v with
      | ok t1 =>
        simp only [PRes.bind]
        cases hm : structLoop ps' rest with
        | ok ts1 =>
          exact absurd hm (ih ps' (by simpa using h) ts1)
        | err e => simp [PRes.map]
        | panic => simp [PRes.map]
      | err e => simp [PRes.bind]
      | panic => simp [PRes.bind]

theorem structLoop_sound :
    ∀ (vs : List JsValue) (ps : List ParamType) (ts : List Token),
      structLoop ps vs = .ok ts →
      ts.length = vs.length ∧ vs.length ≤ ps.length ∧
      ∀ (i : Nat) (hv : i < vs.length) (hp : i < ps.length) (ht : i < ts.length),
        tokenize (ps.get ⟨i, hp⟩) (vs.get ⟨i, hv⟩) = .ok (ts.get ⟨i, ht⟩) := by
  intro vs
  induction vs with
  | nil =>
    intro ps ts h
    cases ps <;> simp only [structLoop] at h <;> cases h <;>
      exact ⟨rfl, by simp, fun i hv _ _ => absurd hv (by simp)⟩
  | cons v rest ih =>
    intro ps ts h
    cases ps with
    | nil => simp only [structLoop] at h; cases h
    | cons p ps' =>
      simp only [structLoop] at h
      cases ht : tokenize p v with
      | ok t1 =>
        rw [ht] at h
        simp only [PRes.bind] at h
        cases hm : structLoop ps' rest with
        | ok ts1 =>
          rw [hm] at h
          simp only [PRes.map] at h
          cases h
          obtain ⟨hlen, hle, hpos⟩ := ih ps' ts1 hm
          refine ⟨by simp [hlen], by simp; omega, ?_⟩
          intro i hv hp hts
          cases i with
          | zero => simpa using ht
          | succ j =>
            simpa using hpos j (by simpa using hv) (by simpa using hp)
              (by simpa using hts)
        | err e => rw [hm] at h; simp [PRes.map] at h
        | panic => rw [hm] at h; simp [PRes.map] at h
      | err e => rw [ht] at h; simp [PRes.bind] at h
      | panic => rw [ht] at h; simp [PRes.bind] at h

/-- C3 counterexample: tokenizing the keyed object `{"a": 1}` (key bytes
`[97]`, value the number `1`) against a `Tuple` type does not produce the
typed error result the claim requires — the source's
`panic!("Unsupported object structure, use an array of ordered values")`
fires instead. -/
theorem c3_counterexample :
    tokenize (ParamType.Tuple [ParamType.Uint 256])
        (JsValue.obj [(97, JsValue.num [49])]) = PRes.panic := by
  simp [tokenize, tokenize_struct, PRes.map]

/-- C3, amended: tokenizing any keyed (object-shaped, non-sequence) host
value against any `Tuple` type is rejected — but via the source's explicit
`panic!` (the "Unsupported object structure" message), i.e. a crash of the
call, not a typed error value handed to the caller. -/
theorem c3_obj_panics (ps : List ParamType) (fields : List (Nat × JsValue)) :
    tokenize (ParamType.Tuple ps) (JsValue.obj fields) = PRes.panic := by
  simp [tokenize, tokenize_struct, PRes.map]

/-- C4 counterexample: a 3-element sequence tokenized against
`FixedArray(Bool, 2)` succeeds (no `LengthMismatch`), because the source's
`ParamType::FixedArray(ref p, _len)` arm discards the declared length. -/
theorem c4_counterexample :
    tokenize (ParamType.FixedArray ParamType.Bool 2)
        (JsValue.arr [JsValue.bool true, JsValue.bool true, JsValue.bool true])
      = PRes.ok (Token.FixedArray [Token.Bool true, Token.Bool true, Token.Bool true]) := by
  simp [tokenize, tokenize_array, mapTokenize, tokenize_bool, PRes.bind, PRes.map]

/-- C4, amended: tokenization against `FixedArray(elem, n)` ignores the
declared length entirely — the result is identical for every declared
length, each element of the input sequence being tokenized against `elem`;
no length check (and hence no `LengthMismatch`) happens at tokenize time. -/
theorem c4_fixed_array_ignores_len (p : ParamType) (n m : Nat) (v : JsValue) :
    tokenize (ParamType.FixedArray p n) v = tokenize (ParamType.FixedArray p m) v := by
  simp [tokenize]

/-- C5 counterexample: a 1-element sequence tokenized against a 2-component
`Tuple` succeeds, producing a 1-element tuple — a shorter input is not an
error, contradicting the claim that only exact-arity sequences tokenize. -/
theorem c5_counterexample :
    tokenize (ParamType.Tuple [ParamType.Bool, ParamType.Bool])
        (JsValue.arr [JsValue.bool true])
      = PRes.ok (Token.Tuple [Token.Bool true]) := by
  simp [tokenize, tokenize_struct, structLoop, tokenize_bool, PRes.bind, PRes.map]

/-- C5, amended: tokenizing an ordered sequence against `Tuple(components)`
never succeeds when the input is longer than the component list (the
`params.next().ok_or(InvalidData)` fails), and a successful run pairs input
position `i` with `components[i]` in order — but an input shorter than the
component list also succeeds, yielding a tuple of only the first
`input.length` components. -/
theorem c5_tuple_positional (ps : List ParamType) (vs : List JsValue) :
    (ps.length < vs.length →
      ∀ t, tokenize (ParamType.Tuple ps) (JsValue.arr vs) ≠ .ok t)
    ∧ ∀ ts, tokenize (ParamType.Tuple ps) (JsValue.arr vs) = .ok (.Tuple ts) →
        ts.length = vs.length ∧ vs.length ≤ ps.length ∧
        ∀ (i : Nat) (hv : i < vs.length) (hp : i < ps.length) (ht : i < ts.length),
          tokenize (ps.get ⟨i, hp⟩) (vs.get ⟨i, hv⟩) = .ok (ts.get ⟨i, ht⟩) := by
  constructor
  · intro hlong t
    simp only [tokenize, tokenize_struct]
    cases hm : structLoop ps vs with
    | ok ts1 => exact absurd hm (structLoop_long vs ps hlong ts1)
    | err e => simp [PRes.map]
    | panic => simp [PRes.map]
  · intro ts h
    simp only [tokenize, tokenize_struct] at h
    cases hm : structLoop ps vs with
    | ok ts1 =>
      rw [hm] at h
      simp only [PRes.map, PRes.ok.injEq, Token.Tuple.injEq] at h
      subst h
      exact structLoop_sound vs ps ts1 hm
    | err e => rw [hm] at h; simp [PRes.map] at h
    | panic => rw [hm] at h; simp [PRes.map] at h

/-- C5 witness: at `Tuple [Bool, Bool]` with the 1-element input
`[true]`, the theorem's positional soundness applies. -/
theorem c5_witness :
    ([Token.Bool true] : List Token).length = [JsValue.bool true].length :=
  ((c5_tuple_positional [ParamType.Bool, ParamType.Bool] [JsValue.bool true]).2
    [Token.Bool true]
    (by simp [tokenize, tokenize_struct, structLoop, tokenize_bool,
      PRes.bind, PRes.map])).1

/-- C1 counterexample: against the well-formed descriptor
`FixedArray(Bool, 2)`, the 1-element input `[true]` tokenizes successfully
(the tokenizer ignores the declared length), but decoding the encoding of
that token against the descriptor does not yield the token back — decoding
fails outright, so the round trip does not hold for every input that
tokenizes successfully. -/
theorem c1_counterexample :
    tokenize (ParamType.FixedArray ParamType.Bool 2) (JsValue.arr [JsValue.bool true])
      = PRes.ok (Token.FixedArray [Token.Bool true])
    ∧ ParamType.wf (ParamType.FixedArray ParamType.Bool 2) = true
    ∧ abiDecode [ParamType.FixedArray ParamType.Bool 2]
        (abiEncode [Token.FixedArray [Token.Bool true]]) = none := by
  refine ⟨?_, ?_, ?_⟩
  · simp [tokenize, tokenize_array, mapTokenize, tokenize_bool, PRes.bind, PRes.map]
  · simp [ParamType.wf]
  · have henc : abiEncode [Token.FixedArray [Token.Bool true]] = word 1 := by
      simp [abiEncode, assemble, encParts, encT, Token.isDyn, anyDyn, heads, tails,
        partsHeadLen]
    have hr1 : readWord (word 1) 0 = some 1 := by
      have hs : slice (word 1) 0 32 = some (word 1) := by
        unfold slice
        rw [if_pos (by rw [word_length])]
        rw [List.drop_zero, List.take_of_length_le (by rw [word_length])]
      simp [readWord, hs, beVal_word 1 (by norm_num)]
    have hr2 : readWord (word 1) 32 = none := by
      simp [readWord, slice, word_length]
    rw [henc]
    simp [abiDecode, decL, decH, decS, decN, isDynT, anyDynT, hr1, hr2]

/-- C1, amended: the round trip `decode(encode(tokenize(x))) = tokenize(x)`
holds for a well-formed descriptor and a realizable host input that
tokenizes successfully, provided additionally that the produced token
structurally matches the descriptor (`typeCheck`) — a condition that
tokenization alone does not guarantee, since it ignores declared
fixed-array lengths and accepts short tuples.  (The encoding-length bound
reflects that ABI offset words are 256-bit.) -/
theorem c1_roundtrip (ty : ParamType) (x : JsValue) (t : Token)
    (hwf : ParamType.wf ty = true) (hx : JsValue.wf x = true)
    (htok : tokenize ty x = .ok t) (hchk : typeCheck t ty = true)
    (hlen : (abiEncode [t]).length < 2 ^ 256) :
    abiDecode [ty] (abiEncode [t]) = some [t] := by
  apply abi_roundtrip
  · simp [checkSeq, hchk]
  · simp [wfAll, hwf]
  · simp [validAll, tokenize_valid hx htok]
  · exact hlen

/-- C1 witness: the round trip at descriptor `Bool` and host input `true`. -/
theorem c1_roundtrip_witness :
    abiDecode [ParamType.Bool] (abiEncode [Token.Bool true])
      = some [Token.Bool true] :=
  c1_roundtrip ParamType.Bool (JsValue.bool true) (Token.Bool true)
    (by simp [ParamType.wf]) (by simp [JsValue.wf])
    (by simp [tokenize, tokenize_bool, PRes.map])
    (by simp [typeCheck])
    (by
      have h : abiEncode [Token.Bool true] = word 1 := by
        simp [abiEncode, assemble, encParts, encT, Token.isDyn, anyDyn, heads,
          tails, partsHeadLen]
      rw [h, word_length]
      norm_num)

/-- Decimal digit text never contains the minus sign (byte 45): every
emitted byte is a digit `48 + d`. -/
theorem decDigits_no_minus : ∀ (fuel v : Nat), 45 ∉ decDigits fuel v := by
  intro fuel
  induction fuel with
  | zero => intro v; simp [decDigits]
  | succ fuel ih =>
    intro v
    rw [decDigits]
    split_ifs with h
    · simp
      omega
    · simp [ih]
      omega

/-- C6 counterexample: the `Int` token holding the 256-bit two's-complement
word of `-1` (that is, `2 ^ 256 - 1`) is surfaced as the unsigned decimal
text of that word, not as the negative decimal text `"-1"` (bytes
`[45, 49]`) — indeed the surfaced text can never contain a minus sign. -/
theorem c6_counterexample :
    tokenize_out (Token.Int (2 ^ 256 - 1))
      = JsValue.str (decimalAscii (2 ^ 256 - 1))
    ∧ decimalAscii (2 ^ 256 - 1) ≠ [45, 49] := by
  refine ⟨by simp [tokenize_out], ?_⟩
  intro h
  have hm : (45 : Nat) ∈ decimalAscii (2 ^ 256 - 1) := by
    rw [h]
    simp
  exact absurd hm (decDigits_no_minus 256 _)

/-- C6, amended: both `Uint` and `Int` tokens are surfaced as the
arbitrary-precision *unsigned* decimal text of the underlying 256-bit
word (ethabi stores both as a `U256`, and `to_string` prints it unsigned),
so full precision is preserved for `Uint`, while a negative `Int` appears
as its two's-complement unsigned reinterpretation — never with a sign. -/
theorem c6_numeric_text (v : Nat) :
    tokenize_out (Token.Uint v) = JsValue.str (decimalAscii v)
    ∧ tokenize_out (Token.Int v) = JsValue.str (decimalAscii v)
    ∧ 45 ∉ decimalAscii v := by
  exact ⟨by simp [tokenize_out], by simp [tokenize_out], decDigits_no_minus 256 v⟩

/-- Hex text output never begins with the two bytes `"0x"`: the second
emitted character is a hex digit of a value below 16, never `'x'`. -/
theorem hexEncode_no_prefix : ∀ (bs r : List Nat), hexEncode bs ≠ 48 :: 120 :: r := by
  intro bs r
  cases bs with
  | nil => simp [hexEncode]
  | cons b rest =>
    simp only [hexEncode]
    intro h
    injection h with h1 h2
    injection h2 with h3 h4
    have hlt : b % 16 < 16 := Nat.mod_lt _ (by norm_num)
    unfold hexDigit at h3
    split_ifs at h3 <;> omega

/-- C7 counterexample: a successful `encodeCall` returns `hex::encode` of
the selector-prefixed payload with no `0x` prefix — the returned text never
starts with the bytes `"0x"`, contradicting the mandatory-prefix claim. -/
theorem c7_counterexample :
    encode_input [(0, [⟨0, [18, 52, 86, 120], [ParamType.Bool], []⟩])] 0 0
        [JsValue.bool true]
      = PRes.ok (hexEncode ([18, 52, 86, 120] ++ abiEncode [Token.Bool true]))
    ∧ ∀ r, hexEncode ([18, 52, 86, 120] ++ abiEncode [Token.Bool true])
        ≠ 48 :: 120 :: r := by
  constructor
  · simp [encode_input, lookupReg, resolveFunction, functionsByName, List.filter,
      encodeInputWith, parse_tokens, tokenize, tokenize_bool, PRes.bind, PRes.map,
      checkSeq, typeCheck]
  · exact fun r => hexEncode_no_prefix _ r

/-- C7, amended: every successful `encodeCall` returns lowercase hex text
*without* the `0x` prefix: the result is `hex::encode(selector ++ payload)`
and can never begin with the bytes `"0x"`. -/
theorem c7_no_prefix (reg : Registry) (id fname : Nat) (args : List JsValue)
    (out : List Nat) (h : encode_input reg id fname args = .ok out) :
    ∀ r, out ≠ 48 :: 120 :: r := by
  unfold encode_input at h
  split at h
  · cases h
  next c hc =>
    split at h
    · cases h
    next f hf =>
      unfold encodeInputWith at h
      split at h
      · cases h
      · cases h
      next tokens heq =>
        split_ifs at h with h1
        · cases h
          exact fun r => hexEncode_no_prefix _ r

/-- C7 witness: the amended theorem applied at the concrete call of the
counterexample, with `r = []`. -/
theorem c7_witness :
    hexEncode ([18, 52, 86, 120] ++ abiEncode [Token.Bool true])
      ≠ 48 :: 120 :: [] :=
  c7_no_prefix [(0, [⟨0, [18, 52, 86, 120], [ParamType.Bool], []⟩])] 0 0
    [JsValue.bool true] _
    (by simp [encode_input, lookupReg, resolveFunction, functionsByName, List.filter,
      encodeInputWith, parse_tokens, tokenize, tokenize_bool, PRes.bind, PRes.map,
      checkSeq, typeCheck]) []

/-- C2 counterexample: decoding the malformed (truncated) wire data `"0x12"`
against a function returning `(bool)` does not produce a typed error result
— the facade's `.unwrap()` of the decode failure panics.  The registry holds
the interface, so the failure is the data's, not a lookup miss. -/
theorem c2_counterexample :
    decode_output [(0, [⟨0, [1, 2, 3, 4], [], [ParamType.Bool]⟩])] 0 0
        [48, 120, 49, 50] = PRes.panic := by
  have hr : removeHexPrefix [48, 120, 49, 50] = .ok [49, 50] := by
    simp [removeHexPrefix]
  have hx : hexDecode [49, 50] = some [18] := by
    simp [hexDecode, hexVal]
  have hd : abiDecode [ParamType.Bool] [18] = none := by
    simp [abiDecode, decL, decH, decS, isDynT, readWord, slice]
  simp [decode_output, lookupReg, resolveFunction, functionsByName, List.filter,
    decodeOutputWith, hr, hx, hd]

/-- C2, amended: when the wire bytes are malformed — the ABI decode of the
(successfully hex-decoded) data fails — `decodeOutput` panics via the
source's `.unwrap()` instead of returning the decode engine's typed error to
the caller. -/
theorem c2_decode_panics (reg : Registry) (id fname : Nat)
    (dataHex s data : List Nat) (c : Contract) (f : AbiFunction)
    (hc : lookupReg reg id = some c) (hf : resolveFunction c fname = some f)
    (hs : removeHexPrefix dataHex = .ok s) (hd : hexDecode s = some data)
    (hdec : abiDecode f.outputs data = none) :
    decode_output reg id fname dataHex = .panic := by
  simp [decode_output, hc, hf, decodeOutputWith, hs, hd, hdec]

/-- C2 witness: the amended theorem at a concrete registry and the
truncated data `"0x34"`. -/
theorem c2_witness :
    decode_output [(0, [⟨0, [1, 2, 3, 4], [], [ParamType.Bool]⟩])] 0 0
        [48, 120, 51, 52] = PRes.panic :=
  c2_decode_panics _ 0 0 _ [51, 52] [52] [⟨0, [1, 2, 3, 4], [], [ParamType.Bool]⟩]
    ⟨0, [1, 2, 3, 4], [], [ParamType.Bool]⟩
    (by simp [lookupReg])
    (by simp [resolveFunction, functionsByName, List.filter])
    (by simp [removeHexPrefix])
    (by simp [hexDecode, hexVal])
    (by simp [abiDecode, decL, decH, decS, isDynT, readWord, slice])

/-- C8 counterexample: an encode call naming an interface id that was never
registered does not report a "not found" error — the `.unwrap()` of the
registry lookup panics. -/
theorem c8_counterexample :
    encode_input [] 0 0 [] = PRes.panic := by
  simp [encode_input, lookupReg]

/-- C8, amended: a missing interface id, or a registered interface without
the requested function name, makes every encode/decode operation panic (the
facade `.unwrap()`s the registry lookup and the name lookup) rather than
reporting a not-found error to the caller. -/
theorem c8_not_found_panics (reg : Registry) (id fname : Nat)
    (args : List JsValue) (dataHex : List Nat)
    (h : lookupReg reg id = none ∨
      ∃ c, lookupReg reg id = some c ∧ resolveFunction c fname = none) :
    encode_input reg id fname args = .panic
    ∧ decode_output reg id fname dataHex = .panic
    ∧ decode_input reg id fname dataHex = .panic := by
  rcases h with h | ⟨c, hc, hf⟩
  · simp [encode_input, decode_output, decode_input, h]
  · simp [encode_input, decode_output, decode_input, hc, hf]

/-- C8 witness: the amended theorem at an interface registered with no
functions, so the name lookup fails. -/
theorem c8_witness :
    encode_input [(5, [])] 5 0 [] = PRes.panic :=
  (c8_not_found_panics [(5, [])] 5 0 [] []
    (Or.inr ⟨[], by simp [lookupReg],
      by simp [resolveFunction, functionsByName, List.filter]⟩)).1

/-- Name resolution picks the first declared function with the name: the
head of the declaration-ordered name group is `List.find?`. -/
theorem resolveFunction_first (c : Contract) (fname : Nat) :
    resolveFunction c fname = c.find? fun f => f.name == fname := by
  induction c with
  | nil => rfl
  | cons f fs ih =>
    simp only [resolveFunction, functionsByName, List.filter, List.find?] at ih ⊢
    cases h : f.name == fname with
    | true => simp [h]
    | false =>
      simp only [h]
      exact ih

/-- C9: when the registered interface resolves `fname` to `f` as its first
declared function of that name (`List.find?` over declaration order), every
encode and decode call with that name runs with exactly `f` — overloads
after the first declared are never chosen. -/
theorem c9_overload_first (reg : Registry) (id fname : Nat) (c : Contract)
    (f : AbiFunction) (args : List JsValue) (dataHex : List Nat)
    (hc : lookupReg reg id = some c)
    (hf : c.find? (fun g => g.name == fname) = some f) :
    encode_input reg id fname args = encodeInputWith f args
    ∧ decode_output reg id fname dataHex = decodeOutputWith f dataHex
    ∧ decode_input reg id fname dataHex = decodeInputWith f dataHex := by
  have hr : resolveFunction c fname = some f := by
    rw [resolveFunction_first, hf]
  simp [encode_input, decode_output, decode_input, hc, hr]

/-- C9 witness: two functions share the name `7`; the call resolves to the
first declared one (selector `[1]`), not the second (`[2]`). -/
theorem c9_witness :
    encode_input [(3, [⟨7, [1], [], []⟩, ⟨7, [2], [], []⟩])] 3 7 []
      = encodeInputWith ⟨7, [1], [], []⟩ [] :=
  (c9_overload_first [(3, [⟨7, [1], [], []⟩, ⟨7, [2], [], []⟩])] 3 7
    [⟨7, [1], [], []⟩, ⟨7, [2], [], []⟩] ⟨7, [1], [], []⟩ [] []
    (by simp [lookupReg])
    (by simp [List.find?])).1

/-- C10: for every hex-string input shorter than 2 bytes, the prefix strip
`&data_hex[..2]` is an out-of-bounds string slice, i.e. a panic, not a typed
error — on the data argument of `decodeOutput`/`decodeInput` and on a text
value tokenized as `Address`, `Bytes`, or `FixedBytes` alike. -/
theorem c10_short_hex_panics (s : List Nat) (h : s.length < 2)
    (reg : Registry) (id fname : Nat) (c : Contract) (f : AbiFunction)
    (hc : lookupReg reg id = some c) (hf : resolveFunction c fname = some f) :
    removeHexPrefix s = .panic
    ∧ tokenize ParamType.Address (JsValue.str s) = .panic
    ∧ tokenize ParamType.Bytes (JsValue.str s) = .panic
    ∧ tokenize (ParamType.FixedBytes 32) (JsValue.str s) = .panic
    ∧ decode_output reg id fname s = .panic
    ∧ decode_input reg id fname s = .panic := by
  have hp : removeHexPrefix s = .panic := by
    simp [removeHexPrefix, h]
  refine ⟨hp, ?_, ?_, ?_, ?_, ?_⟩
  · simp [tokenize, tokenize_address, hp, PRes.bind, PRes.map]
  · simp [tokenize, tokenize_bytes, hp, PRes.bind, PRes.map]
  · simp [tokenize, tokenize_fixed_bytes, hp, PRes.bind, PRes.map]
  · simp [decode_output, hc, hf, decodeOutputWith, hp]
  · simp [decode_input, hc, hf, decodeInputWith, removeBytes4, hp, PRes.bind]

/-- C10 witness: the empty data string panics on every listed path, with a
concrete one-function registry. -/
theorem c10_witness :
    removeHexPrefix [] = PRes.panic :=
  (c10_short_hex_panics [] (by simp)
    [(0, [⟨0, [1], [], []⟩])] 0 0 [⟨0, [1], [], []⟩] ⟨0, [1], [], []⟩
    (by simp [lookupReg])
    (by simp [resolveFunction, functionsByName, List.filter])).1

end FastAbi
